import Mathlib

set_option autoImplicit false
set_option maxRecDepth 200000

/-!
Verification development for the MarketplaceNicheScout repository
(single source file `src/__main__.py`).

The program is embedded shallowly:

* A Python `Dict[str, Any]` world state only ever holds boolean values in
  this program, so a world state is embedded as an association list
  `List (String × Bool)`.  A Python dict has unique keys and
  `GOAPPlanner.state_hash` serializes states with `sort_keys=True`, so a
  dict is represented by its canonical, key-sorted association list
  (predicate `canon_state`); on canonical representatives the sorted
  serialization used for duplicate detection is injective, so the explored
  set can store the states themselves.
* Fractional action costs (Python floats `1.0`, `1.5`, ...) are embedded
  as rationals, written as ratio literals (`3/2` for the float `1.5`)
  because decimal literals for `Rat` are irreducible and would block
  kernel evaluation of concrete plans.
* `heapq.heappush`/`heappop` with `Node.__lt__` comparing only `cost` is a
  min-priority queue on the cumulative cost; it is embedded as a list with
  `pop_min` extracting a minimal-cost node (earliest among equal costs —
  the heap library leaves ties unspecified).
* The unbounded `while frontier:` loop is embedded with an explicit fuel
  parameter; `plan_bound` is a fuel value proven sufficient
  (`plan_loop_total`), so the top-level `plan` never runs out of fuel.
-/

/-- World state of the GOAP planner: the canonical (key-sorted) association
list embedding of a Python `Dict[str, bool]`. -/
abbrev WState := List (String × Bool)

/-- Lexicographic order on character lists by Unicode code point, the
order `json.dumps(..., sort_keys=True)` sorts dictionary keys by.  (A
hand-rolled comparison is used because the library's string order is
defined by well-founded recursion and does not evaluate inside the
kernel.) -/
def chars_lt : List Char → List Char → Bool
  | [], [] => false
  | [], _ :: _ => true
  | _ :: _, [] => false
  | a :: as, b :: bs => if a < b then true else if a = b then chars_lt as bs else false

/-- Strict order on strings by Unicode code point, as Python compares
`str` keys when sorting. -/
def str_lt (a b : String) : Bool := chars_lt a.data b.data

/-- Lookup of `state[key]`, `none` when `key not in state`. -/
def lookup_val : WState → String → Option Bool
  | [], _ => none
  | (k, v) :: rest, key => if k = key then some v else lookup_val rest key

/-- Assignment `state[key] = value` on the canonical association-list
embedding of a dict: replace the binding if the key is present, otherwise
insert it at its sorted position. -/
def set_value : WState → String → Bool → WState
  | [], key, v => [(key, v)]
  | (k, w) :: rest, key, v =>
    if str_lt key k then (key, v) :: (k, w) :: rest
    else if key = k then (key, v) :: rest
    else (k, w) :: set_value rest key v

/-- Keys of a world state (the dict's key set, in list form). -/
def state_keys (s : WState) : List String := s.map Prod.fst

/-- Well-formedness of the embedding: the association list is strictly
sorted by key, which is exactly the canonical form `json.dumps(state,
sort_keys=True)` serializes. -/
abbrev canon_state (s : WState) : Prop :=
  List.Pairwise (fun p q : String × Bool => str_lt p.1 q.1 = true) s

/-- Embedding of the source `Action` class: name, preconditions, effects
(partial world states, i.e. dicts) and a cost. -/
structure GoapAction where
  name : String
  preconditions : List (String × Bool)
  effects : List (String × Bool)
  cost : ℚ := 1
deriving DecidableEq, Repr

/-- Embedding of the search `Node` class: a world state, the action
sequence that produced it and its cumulative cost.  `Node.__lt__` compares
`cost` only, so the heap orders nodes by cumulative cost. -/
structure Node where
  state : WState
  actions : List GoapAction
  cost : ℚ
deriving DecidableEq, Repr

/-- Extraction of a minimal-cost node from the frontier list, together
with the remaining frontier.  This embeds `heapq.heappop` on a heap whose
elements are compared with `Node.__lt__` (cost only); among equal costs
the earliest pushed node is returned (the heap library does not specify
which tied element is popped). -/
def pop_min : List Node → Option (Node × List Node)
  | [] => none
  | n :: ns =>
    match pop_min ns with
    | none => some (n, [])
    | some (m, rest) => if n.cost ≤ m.cost then some (n, ns) else some (m, n :: rest)

namespace GOAPPlanner

/-- Embedding of `GOAPPlanner.can_perform`: every precondition key must be
present in the state with an equal value. -/
def can_perform (action : GoapAction) (state : WState) : Bool :=
  action.preconditions.all fun kv => lookup_val state kv.1 == some kv.2

/-- Embedding of `GOAPPlanner.apply_effects`: assign every effect key in
the state, in order. -/
def apply_effects (action : GoapAction) (state : WState) : WState :=
  action.effects.foldl (fun st kv => set_value st kv.1 kv.2) state

/-- Embedding of `GOAPPlanner.goals_satisfied`: every goal key must be
present in the state with an equal value. -/
def goals_satisfied (goals : List (String × Bool)) (state : WState) : Bool :=
  goals.all fun kv => lookup_val state kv.1 == some kv.2

/-- Embedding of `GOAPPlanner.state_hash`: `json.dumps(state,
sort_keys=True)` is injective on canonical states, so the hash is the
canonical state itself. -/
def state_hash (state : WState) : WState := state

/-- Successor nodes pushed when expanding `node`: one per applicable
action of the catalog, in catalog order, with the parent state copied and
the action's effects applied, cumulative cost and extended action list. -/
def successors (actions : List GoapAction) (node : Node) : List Node :=
  (actions.filter fun a => can_perform a node.state).map fun a =>
    ⟨apply_effects a node.state, node.actions ++ [a], node.cost + a.cost⟩

/-- Embedding of the `while frontier:` loop of `GOAPPlanner.plan` with an
explicit fuel parameter (`none` = fuel exhausted, which `plan_loop_total`
shows never happens for the fuel used by `plan`).  Pop a minimal-cost
node; return its action list if its state satisfies the goals; skip it if
its hash was explored; otherwise mark it explored and push all successor
nodes. -/
def plan_loop (actions : List GoapAction) (goals : List (String × Bool)) :
    Nat → List Node → List WState → Option (List GoapAction)
  | 0, _, _ => none
  | fuel + 1, frontier, explored =>
    match pop_min frontier with
    | none => some []
    | some (node, rest) =>
      if goals_satisfied goals node.state then some node.actions
      else if state_hash node.state ∈ explored then plan_loop actions goals fuel rest explored
      else plan_loop actions goals fuel (rest ++ successors actions node)
        (state_hash node.state :: explored)

/-- Insertion into a strictly sorted, duplicate-free key list. -/
def insert_key_sorted : List String → String → List String
  | [], k => [k]
  | x :: xs, k =>
    if str_lt k x then k :: x :: xs
    else if k = x then x :: xs
    else x :: insert_key_sorted xs k

/-- Sorted, duplicate-free list of every key that can occur in a state
reachable by the search: the initial state's keys plus every effect key of
the catalog. -/
def key_universe (actions : List GoapAction) (state : WState) : List String :=
  (state_keys state ++ actions.flatMap fun a => a.effects.map Prod.fst).foldl
    insert_key_sorted []

/-- Every canonical state over a sorted key list `ks`: each key is absent,
true or false.  This enumerates the finite state space the search can
visit. -/
def all_states : List String → List WState
  | [] => [[]]
  | k :: ks =>
    all_states ks ++ (all_states ks).map (fun s => (k, true) :: s)
      ++ (all_states ks).map (fun s => (k, false) :: s)

/-- Fuel sufficient for the search loop to run to completion: each loop
iteration either discards an explored node or explores a new state out of
the finite state space, pushing at most one node per catalog action. -/
def plan_bound (actions : List GoapAction) (state : WState) : Nat :=
  (actions.length + 1) * (all_states (key_universe actions state)).length + 2

/-- Search part of `GOAPPlanner.plan`: the initial node carries a copy of
the input state, no actions and cost 0; the explored set starts empty. -/
def plan_search (actions : List GoapAction) (goals : List (String × Bool)) (state : WState) :
    Option (List GoapAction) :=
  plan_loop actions goals (plan_bound actions state) [⟨state, [], 0⟩] []

/-- Embedding of `GOAPPlanner.plan`: run the search; an exhausted frontier
produces the empty plan (`return []  # План не найден`). -/
def plan (actions : List GoapAction) (goals : List (String × Bool)) (state : WState) :
    List GoapAction :=
  (plan_search actions goals state).getD []

end GOAPPlanner

/-- Result of running a list of actions from a state by repeatedly
applying `apply_effects`, ignoring preconditions (this is what executing a
returned plan does to the world state). -/
def exec_seq (state : WState) (acts : List GoapAction) : WState :=
  acts.foldl (fun st a => GOAPPlanner.apply_effects a st) state

/-- Executability of an action sequence from a state: each action's
preconditions hold in the state produced by its predecessors. -/
def exec_ok (state : WState) : List GoapAction → Bool
  | [] => true
  | a :: rest => GOAPPlanner.can_perform a state && exec_ok (GOAPPlanner.apply_effects a state) rest

/-- Total cost of an action sequence. -/
def cost_of (acts : List GoapAction) : ℚ := (acts.map GoapAction.cost).sum

/-- Invariant of a search node: its action sequence is executable from the
initial state, reproduces the node's state, consists of catalog actions,
has the node's cost, and an empty sequence means the node carries the
initial state. -/
def sound_node (actions : List GoapAction) (start : WState) (n : Node) : Prop :=
  exec_ok start n.actions = true ∧ exec_seq start n.actions = n.state ∧
    cost_of n.actions = n.cost ∧ (∀ a ∈ n.actions, a ∈ actions) ∧
    (n.actions = [] → n.state = start)

/-- Optimality invariant of the search loop. `D` assigns to every explored
state the cost at which it was popped: explored states fail the goal test,
their pop costs never exceed any frontier cost, every applicable successor
of an explored state is explored at consistent cost or covered by a
frontier node, and the initial state is explored at cost at most 0 or
covered by a frontier node of cost at most 0. -/
def opt_inv (actions : List GoapAction) (goals : List (String × Bool)) (start : WState)
    (frontier : List Node) (explored : List WState) : Prop :=
  ∃ D : WState → ℚ,
    (∀ t ∈ explored, GOAPPlanner.goals_satisfied goals t = false) ∧
    (∀ t ∈ explored, ∀ n ∈ frontier, D t ≤ n.cost) ∧
    (∀ t ∈ explored, ∀ a ∈ actions, GOAPPlanner.can_perform a t = true →
      (GOAPPlanner.apply_effects a t ∈ explored ∧
        D (GOAPPlanner.apply_effects a t) ≤ D t + a.cost) ∨
      ∃ n ∈ frontier, n.state = GOAPPlanner.apply_effects a t ∧ n.cost ≤ D t + a.cost) ∧
    ((start ∈ explored ∧ D start ≤ 0) ∨ ∃ n ∈ frontier, n.state = start ∧ n.cost ≤ 0)

/-- Reachability invariant of the search loop (cost-free): explored
states fail the goal test, every applicable successor of an explored
state is explored or on the frontier, and the initial state is explored
or on the frontier. -/
def cover_inv (actions : List GoapAction) (goals : List (String × Bool)) (start : WState)
    (frontier : List Node) (explored : List WState) : Prop :=
  (∀ t ∈ explored, GOAPPlanner.goals_satisfied goals t = false) ∧
  (∀ t ∈ explored, ∀ a ∈ actions, GOAPPlanner.can_perform a t = true →
    GOAPPlanner.apply_effects a t ∈ explored ∨
      ∃ n ∈ frontier, n.state = GOAPPlanner.apply_effects a t) ∧
  (start ∈ explored ∨ ∃ n ∈ frontier, n.state = start)

/-- Strictly sorted, duplicate-free key list. -/
abbrev sorted_keys (l : List String) : Prop :=
  List.Pairwise (fun a b => str_lt a b = true) l

/-- Reference into the object store of the planner's mutation model. -/
abbrev DictRef := Nat

/-- Object store for the mutation model of `GOAPPlanner.plan`: Python dict
objects are cells in a store, and a `Node` holds a reference to its state
dict.  This models which dict objects the search mutates. -/
abbrev DictStore := List WState

/-- Read of a dict object from the store. -/
def read_ref (σ : DictStore) (r : DictRef) : WState := σ.getD r []

/-- Search node of the mutation model: the state is a reference into the
store instead of a value. -/
structure NodeRef where
  state : DictRef
  actions : List GoapAction
  cost : ℚ
deriving DecidableEq, Repr

/-- Extraction of a minimal-cost node, as `pop_min` but for reference
nodes. -/
def pop_min_ref : List NodeRef → Option (NodeRef × List NodeRef)
  | [] => none
  | n :: ns =>
    match pop_min_ref ns with
    | none => some (n, [])
    | some (m, rest) => if n.cost ≤ m.cost then some (n, ns) else some (m, n :: rest)

namespace GOAPPlanner

/-- Mutation model of `apply_effects`: `state[key] = value` writes the
dict object in place, so the store cell `r` is overwritten once per
effect. -/
def apply_effects_ref (action : GoapAction) (r : DictRef) (σ : DictStore) : DictStore :=
  action.effects.foldl (fun σ kv => σ.set r (set_value (read_ref σ r) kv.1 kv.2)) σ

/-- One expansion step of the mutation model: for each applicable catalog
action, `node.state.copy()` allocates a fresh cell holding a copy of the
parent dict, and `apply_effects` then mutates only that fresh cell. -/
def expand_ref (actions : List GoapAction) (node : NodeRef) (σ : DictStore) :
    List NodeRef × DictStore :=
  actions.foldl
    (fun acc a =>
      if can_perform a (read_ref acc.2 node.state) then
        let fresh := acc.2.length
        let σ₁ := acc.2 ++ [read_ref acc.2 node.state]
        (acc.1 ++ [⟨fresh, node.actions ++ [a], node.cost + a.cost⟩],
          apply_effects_ref a fresh σ₁)
      else acc)
    ([], σ)

/-- Search loop of the mutation model, mirroring `plan_loop` but with the
explicit dict store threaded through; the store is returned alongside the
result so mutation can be observed. -/
def plan_loop_ref (actions : List GoapAction) (goals : List (String × Bool)) :
    Nat → List NodeRef → List WState → DictStore → Option (List GoapAction) × DictStore
  | 0, _, _, σ => (none, σ)
  | fuel + 1, frontier, explored, σ =>
    match pop_min_ref frontier with
    | none => (some [], σ)
    | some (node, rest) =>
      if goals_satisfied goals (read_ref σ node.state) then (some node.actions, σ)
      else if state_hash (read_ref σ node.state) ∈ explored then
        plan_loop_ref actions goals fuel rest explored σ
      else
        let (pushes, σ') := expand_ref actions node σ
        plan_loop_ref actions goals fuel (rest ++ pushes) (state_hash (read_ref σ node.state) :: explored) σ'

/-- Mutation model of `GOAPPlanner.plan`: the caller's dict lives at `r`
in store `σ`; `state.copy()` allocates a fresh cell for the initial node
before anything is pushed. -/
def plan_ref (actions : List GoapAction) (goals : List (String × Bool)) (r : DictRef)
    (σ : DictStore) : Option (List GoapAction) × DictStore :=
  plan_loop_ref actions goals (plan_bound actions (read_ref σ r))
    [⟨σ.length, [], 0⟩] [] (σ ++ [read_ref σ r])

end GOAPPlanner

/-- Observable behavior of a subscriber callback during one dispatch, for
the MessageBroker model: a callback has an identity (`ident`, logged with
the delivered message when it is invoked), performs a list of reentrant
`subscribe(topic, callback)` calls, and finally either returns or raises.
(The repository's callbacks also publish to other topics and never
subscribe or consume during dispatch; only the subscribe capability is
needed to settle the dispatch-snapshot claims.) -/
inductive Callback where
  | mk (ident : Nat) (subs : List (String × Callback)) (raises : Bool)

/-- Identity of a callback, recorded in the invocation log. -/
def Callback.ident : Callback → Nat
  | .mk i _ _ => i

/-- Reentrant `subscribe` calls a callback performs when invoked. -/
def Callback.subs : Callback → List (String × Callback)
  | .mk _ s _ => s

/-- Whether the callback raises after its subscribe calls. -/
def Callback.raises : Callback → Bool
  | .mk _ _ r => r

mutual
/-- Whether a callback and, recursively, every callback it subscribes run
without raising. -/
def Callback.no_raise : Callback → Bool
  | .mk _ subs r => !r && entries_no_raise subs

/-- Whether every callback of a subscription list runs without raising. -/
def entries_no_raise : List (String × Callback) → Bool
  | [] => true
  | (_, c) :: rest => c.no_raise && entries_no_raise rest
end

mutual
/-- Structural size of a callback, the termination measure of the
dispatch loop: a callback outweighs everything it can subscribe. -/
def Callback.weight : Callback → Nat
  | .mk _ subs _ => 1 + weight_entries subs

/-- Combined weight of a subscription list. -/
def weight_entries : List (String × Callback) → Nat
  | [] => 0
  | (_, c) :: rest => Callback.weight c + weight_entries rest
end

/-- Total weight of a list of callbacks. -/
def cb_list_weight (l : List Callback) : Nat := (l.map Callback.weight).sum

/-- Lookup in a `defaultdict(list)`: a missing key denotes the empty
list. -/
def dd_get {α : Type} (l : List (String × α)) (k : String) (d : α) : α :=
  match l with
  | [] => d
  | (x, v) :: rest => if x = k then v else dd_get rest k d

/-- Update of a `defaultdict(list)` entry. -/
def dd_set {α : Type} : List (String × α) → String → α → List (String × α)
  | [], k, v => [(k, v)]
  | (x, w) :: rest, k, v => if x = k then (k, v) :: rest else (x, w) :: dd_set rest k v

/-- Embedding of the `MessageBroker` state: per-topic FIFO queues and
per-topic subscriber lists. -/
structure Broker where
  queues : List (String × List String)
  subscribers : List (String × List Callback)

namespace MessageBroker

/-- Embedding of `MessageBroker.subscribe`: append the callback to the
topic's subscriber list. -/
def subscribe (br : Broker) (queue : String) (cb : Callback) : Broker :=
  { br with subscribers := dd_set br.subscribers queue (dd_get br.subscribers queue [] ++ [cb]) }

/-- Reentrant `subscribe` calls performed by one callback invocation, in
order. -/
def subscribe_all (br : Broker) (l : List (String × Callback)) : Broker :=
  l.foldl (fun b p => subscribe b p.1 p.2) br

/-- Embedding of `MessageBroker.consume`: pop the oldest message of the
topic's queue, or `none` if the queue is empty. -/
def consume (br : Broker) (queue : String) : Option String × Broker :=
  match dd_get br.queues queue [] with
  | [] => (none, br)
  | x :: rest => (some x, { br with queues := dd_set br.queues queue rest })

/-- Dispatch loop of `MessageBroker.publish`: `for callback in
self.subscribers[queue]: callback(message)` iterates the live list by
index, so `pending` holds the not-yet-visited slice and callbacks
appended to this topic during dispatch extend it.  Returns the broker,
the invocation log of this call and `false` when a callback raised
(aborting delivery to the rest). -/
def publish_loop (topic : String) (m : String) :
    List Callback → Broker → List (Nat × String) → Broker × List (Nat × String) × Bool
  | [], br, log => (br, log, true)
  | c :: pending, br, log =>
    let log' := log ++ [(c.ident, m)]
    let br' := subscribe_all br c.subs
    if c.raises then (br', log', false)
    else publish_loop topic m
      (pending ++ ((c.subs.filter fun p => p.1 = topic)).map Prod.snd) br' log'
termination_by pending _ _ => cb_list_weight pending
decreasing_by
  have hgen : ∀ l : List (String × Callback),
      (List.map Callback.weight (List.map Prod.snd l)).sum = weight_entries l := by
    intro l
    induction l with
    | nil => rw [weight_entries]; rfl
    | cons hd tl ih =>
      obtain ⟨t0, c0⟩ := hd
      rw [weight_entries]
      simp only [List.map_cons, List.sum_cons, ih]
  have key : cb_list_weight ((c.subs.filter fun p => p.1 = topic).map Prod.snd) < c.weight := by
    cases c with
    | mk i subs r =>
      rw [Callback.weight]
      have hsubl : List.Sublist
          (List.map Callback.weight (List.map Prod.snd (subs.filter fun p => p.1 = topic)))
          (List.map Callback.weight (List.map Prod.snd subs)) :=
        ((subs.filter_sublist).map Prod.snd).map Callback.weight
      have h1 := hsubl.sum_le_sum (fun b _ => Nat.zero_le b)
      rw [hgen subs] at h1
      simp only [cb_list_weight, Callback.subs]
      omega
  simp only [cb_list_weight, List.map_append, List.sum_append, List.map_cons, List.sum_cons]
  simp only [cb_list_weight] at key
  omega

/-- Embedding of `MessageBroker.publish`: append the message to the
topic's queue, then invoke the topic's subscribers.  Returns the broker,
the call's invocation log and whether every invoked callback returned. -/
def publish (br : Broker) (queue : String) (message : String) :
    Broker × List (Nat × String) × Bool :=
  let br1 : Broker :=
    { br with queues := dd_set br.queues queue (dd_get br.queues queue [] ++ [message]) }
  publish_loop queue message (dd_get br1.subscribers queue []) br1 []

end MessageBroker

/-- Callback (id 0) that reentrantly subscribes a second callback (id 1)
to the same topic while being invoked. -/
def reentrant_callback : Callback := .mk 0 [("market.raw_data", .mk 1 [] false)] false

/-- Broker whose only subscriber on topic `market.raw_data` is
`reentrant_callback`. -/
def reentrant_broker : Broker := ⟨[], [("market.raw_data", [reentrant_callback])]⟩

/-- Broker whose only subscriber on topic `market.raw_data` raises. -/
def raising_broker : Broker := ⟨[], [("market.raw_data", [.mk 0 [] true])]⟩

/-- Action catalog of `DataCollector` (costs `1.0`, `1.5`, `2.0`, `3.0`
written as rationals). -/
def collector_actions : List GoapAction :=
  [⟨"fetch_sales_data", [("api_available", true)], [("has_category_sales", true)], 1⟩,
   ⟨"scrape_prices", [("catalog_accessible", true)], [("has_price_data", true)], 3/2⟩,
   ⟨"count_sellers", [("catalog_accessible", true)], [("has_seller_count", true)], 2⟩,
   ⟨"fallback_api_scraping", [("api_available", false), ("catalog_accessible", true)],
     [("has_category_sales", true), ("has_price_data", true)], 3⟩]

/-- Goals of `DataCollector`. -/
def collector_goals : List (String × Bool) :=
  [("has_category_sales", true), ("has_price_data", true), ("has_seller_count", true)]

/-- Initial state of `DataCollector`, in canonical key order. -/
def collector_state : WState :=
  [("api_available", true), ("catalog_accessible", true), ("has_category_sales", false),
   ("has_price_data", false), ("has_seller_count", false)]

/-- Action catalog of the `Orchestrator` (costs `1.0`, `2.0`, `1.5`,
`3.0`, `1.0`). -/
def orchestrator_actions : List GoapAction :=
  [⟨"collect_data", [], [("data_collected", true)], 1⟩,
   ⟨"analyze_data", [("data_collected", true)], [("data_analyzed", true)], 2⟩,
   ⟨"research_audience", [("data_analyzed", true)], [("audience_analyzed", true)], 3/2⟩,
   ⟨"evaluate_niches", [("data_analyzed", true), ("audience_analyzed", true)],
     [("niches_evaluated", true)], 3⟩,
   ⟨"make_decision", [("niches_evaluated", true)], [("decision_made", true)], 1⟩]

/-- Goal of `Orchestrator.run_workflow`. -/
def orchestrator_goals : List (String × Bool) := [("decision_made", true)]

/-- Initial `Orchestrator` state (all five completion flags false), in
canonical key order. -/
def orchestrator_state0 : WState :=
  [("audience_analyzed", false), ("data_analyzed", false), ("data_collected", false),
   ("decision_made", false), ("niches_evaluated", false)]

/-- Orchestrator state with flags set out of dependency order:
`data_analyzed` is true while `data_collected` is false. -/
def orchestrator_state_out_of_order : WState :=
  [("audience_analyzed", false), ("data_analyzed", true), ("data_collected", false),
   ("decision_made", false), ("niches_evaluated", false)]

/-- Embedding of `Orchestrator.run_workflow`: skip if the goal is already
satisfied, otherwise plan and publish one command event per planned
action, in plan order (the command name is the action name). -/
def run_workflow (st : WState) : List String :=
  if GOAPPlanner.goals_satisfied orchestrator_goals st then []
  else (GOAPPlanner.plan orchestrator_actions orchestrator_goals st).map GoapAction.name

/-- Embedding of the `NicheEvaluation` dataclass.  Score floats are
embedded as rationals. -/
structure NicheEvaluation where
  category_id : String
  category_name : String
  profitability_score : ℚ
  risk_score : ℚ
  compliance_ok : Bool
deriving DecidableEq, Repr

/-- Embedding of the `Recommendation` dataclass. -/
structure Recommendation where
  category_id : String
  category_name : String
  confidence : ℚ
  reasons : List String
deriving DecidableEq, Repr

/-- Ranking key of `DecisionMaker`: `profitability_score /
max(risk_score, 0.01)`. -/
def selection_key (e : NicheEvaluation) : ℚ :=
  e.profitability_score / max e.risk_score (1/100)

/-- Embedding of Python `max(valid_niches, key=...)` over a nonempty list
`x :: xs`: later elements replace the current best only when strictly
greater, so the first of several maximal elements wins. -/
def py_max_by (f : NicheEvaluation → ℚ) (x : NicheEvaluation) (xs : List NicheEvaluation) :
    NicheEvaluation :=
  xs.foldl (fun best y => if f best < f y then y else best) x

/-- Decimal rendering of a rational with the given number of fractional
digits, modelling the `:.1f` / `:.2f` float format specifiers of the
recommendation reasons (rounding of exact half values may differ from
binary floats; no claim depends on these strings). -/
def rat_fmt (digits : Nat) (q : ℚ) : String :=
  let sign := if q < 0 then "-" else ""
  let scaled : ℤ := ⌊|q| * (10 : ℚ) ^ digits + 1 / 2⌋
  let base : ℤ := (10 : ℤ) ^ digits
  let fps := toString (scaled % base).toNat
  sign ++ toString (scaled / base) ++ "." ++
    String.mk (List.replicate (digits - fps.length) '0') ++ fps

/-- Fixed recommendation `DecisionMaker` publishes when no evaluation
passes the compliance check. -/
def no_suitable_recommendation : Recommendation :=
  ⟨"none", "Нет подходящих ниш", 0,
    ["Ни одна категория не соответствует правилам маркетплейса"]⟩

/-- Embedding of `DecisionMaker.handle_evaluations`: filter compliant
evaluations; if none remain, the fixed zero-confidence recommendation;
otherwise the best evaluation by `max(..., key=selection_key)` with
confidence `min(profitability / 10000, 1.0)` and formatted reasons. -/
def handle_evaluations (evaluations : List NicheEvaluation) : Recommendation :=
  match evaluations.filter (fun e => e.compliance_ok) with
  | [] => no_suitable_recommendation
  | e :: rest =>
    let best_niche := py_max_by selection_key e rest
    ⟨best_niche.category_id, best_niche.category_name,
      min (best_niche.profitability_score / 10000) 1,
      ["Высокая прибыльность (" ++ rat_fmt 1 best_niche.profitability_score ++ ")",
       "Низкий риск (" ++ rat_fmt 2 best_niche.risk_score ++ ")",
       "Соответствие правилам платформы"]⟩

/-- Selection rule as the specification words it, for the refinement
comparison: "selects the one maximizing `profitability / max(risk, 0.01)`;
deterministic tie-break = first encountered in iteration order" — the
first list element whose key no other element exceeds. -/
def spec_best_niche (l : List NicheEvaluation) : Option NicheEvaluation :=
  l.find? fun e => l.all fun y => decide (selection_key y ≤ selection_key e)

/-- Local state of `NicheEvaluator`: the three planner flags plus the
key sets of its `category_data` and `audience_data` dicts and the
`expected_categories` set (dict key order preserved). -/
structure EvaluatorState where
  category_data_ready : Bool
  audience_data_ready : Bool
  niche_evaluated : Bool
  category_ids : List String
  audience_ids : List String
  expected_categories : List String
deriving DecidableEq, Repr

/-- Initial `NicheEvaluator` state. -/
def evaluator_init : EvaluatorState := ⟨false, false, false, [], [], []⟩

/-- Key set update of a dict indexed by category id: inserting an
existing key keeps its position, a new key is appended. -/
def dict_insert_key (l : List String) (k : String) : List String :=
  if k ∈ l then l else l ++ [k]

/-- Python set equality of two key lists (`set(a) == set(b)`): mutual
membership, not size comparison. -/
def set_eq (a b : List String) : Bool := a.all (· ∈ b) && b.all (· ∈ a)

/-- Planner flags of `NicheEvaluator.state` in canonical key order. -/
def flag_state (st : EvaluatorState) : WState :=
  [("audience_data_ready", st.audience_data_ready),
   ("category_data_ready", st.category_data_ready),
   ("niche_evaluated", st.niche_evaluated)]

/-- Single action of the catalog `NicheEvaluator.try_evaluate` passes to
the planner. -/
def evaluate_category_action : GoapAction :=
  ⟨"evaluate_category", [("category_data_ready", true), ("audience_data_ready", true)],
    [("niche_evaluated", true)], 1⟩

/-- Embedding of `NicheEvaluator.try_evaluate` restricted to its
observable decision: whether `evaluate_categories` runs, i.e. the guard
passes and the planner returns a nonempty plan. -/
def try_evaluate_runs (st : EvaluatorState) : Bool :=
  if !st.category_data_ready || !st.audience_data_ready then false
  else !(GOAPPlanner.plan [evaluate_category_action] [("niche_evaluated", true)]
    (flag_state st)).isEmpty

/-- Embedding of `NicheEvaluator.handle_analyzed_data`: rebuild
`category_data` from the message's category ids, set
`expected_categories` to its key set, set the flag, call `try_evaluate`.
Returns the new state and whether evaluation ran. -/
def handle_analyzed_data (ids : List String) (st : EvaluatorState) : EvaluatorState × Bool :=
  let cids := ids.foldl dict_insert_key []
  let st' := { st with
    category_ids := cids
    expected_categories := cids
    category_data_ready := true }
  (st', try_evaluate_runs st')

/-- Embedding of `NicheEvaluator.handle_audience_data`: store the message
under its category id; when the stored key set equals
`expected_categories` as a set, set `audience_data_ready` and call
`try_evaluate`.  Returns the new state and whether evaluation ran. -/
def handle_audience_data (cid : String) (st : EvaluatorState) : EvaluatorState × Bool :=
  let aids := dict_insert_key st.audience_ids cid
  if set_eq aids st.expected_categories then
    let st' := { st with audience_ids := aids, audience_data_ready := true }
    (st', try_evaluate_runs st')
  else
    ({ st with audience_ids := aids }, false)

/-- Fold of `handle_audience_data` over a list of incoming
audience-insight category ids. -/
def process_audience_list (cids : List String) (st : EvaluatorState) : EvaluatorState :=
  cids.foldl (fun s c => (handle_audience_data c s).1) st

/-! ### Order lemmas for the canonical key order -/

theorem chars_lt_irrefl : ∀ l : List Char, chars_lt l l = false := by
  intro l
  induction l with
  | nil => rfl
  | cons a as ih => simp [chars_lt, ih]

theorem chars_lt_trans : ∀ a b c : List Char,
    chars_lt a b = true → chars_lt b c = true → chars_lt a c = true := by
  intro a
  induction a with
  | nil =>
    intro b c hab hbc
    cases b with
    | nil => simp [chars_lt] at hab
    | cons y ys =>
      cases c with
      | nil => simp [chars_lt] at hbc
      | cons z zs => simp [chars_lt]
  | cons x xs ih =>
    intro b c hab hbc
    cases b with
    | nil => simp [chars_lt] at hab
    | cons y ys =>
      cases c with
      | nil => simp [chars_lt] at hbc
      | cons z zs =>
        simp only [chars_lt] at hab hbc ⊢
        by_cases h1 : x < y
        · by_cases h2 : y < z
          · simp [lt_trans h1 h2]
          · rw [if_neg h2] at hbc
            by_cases h3 : y = z
            · rw [if_pos h3] at hbc
              simp [h3 ▸ h1]
            · rw [if_neg h3] at hbc
              exact absurd hbc (by simp)
        · rw [if_neg h1] at hab
          by_cases h4 : x = y
          · rw [if_pos h4] at hab
            by_cases h2 : y < z
            · simp [h4 ▸ h2]
            · rw [if_neg h2] at hbc
              by_cases h3 : y = z
              · rw [if_pos h3] at hbc
                have hxz : x = z := h4.trans h3
                rw [if_neg (by rw [hxz]; exact lt_irrefl _), if_pos hxz]
                exact ih ys zs hab hbc
              · rw [if_neg h3] at hbc
                exact absurd hbc (by simp)
          · rw [if_neg h4] at hab
            exact absurd hab (by simp)

theorem chars_lt_antisymm : ∀ a b : List Char,
    chars_lt a b = false → chars_lt b a = false → a = b := by
  intro a
  induction a with
  | nil =>
    intro b hab _
    cases b with
    | nil => rfl
    | cons y ys => simp [chars_lt] at hab
  | cons x xs ih =>
    intro b hab hba
    cases b with
    | nil => simp [chars_lt] at hba
    | cons y ys =>
      simp only [chars_lt] at hab hba
      by_cases h1 : x < y
      · rw [if_pos h1] at hab
        exact absurd hab (by simp)
      · by_cases h2 : y < x
        · rw [if_pos h2] at hba
          exact absurd hba (by simp)
        · have hxy : x = y := le_antisymm (not_lt.mp h2) (not_lt.mp h1)
          rw [if_neg h1, if_pos hxy] at hab
          rw [if_neg h2, if_pos hxy.symm] at hba
          rw [hxy, ih ys hab hba]

theorem str_lt_irrefl (a : String) : str_lt a a = false := chars_lt_irrefl a.data

theorem str_lt_trans {a b c : String} (h1 : str_lt a b = true) (h2 : str_lt b c = true) :
    str_lt a c = true := chars_lt_trans a.data b.data c.data h1 h2

theorem str_lt_antisymm {a b : String} (h1 : str_lt a b = false) (h2 : str_lt b a = false) :
    a = b := by
  have h := chars_lt_antisymm a.data b.data h1 h2
  cases a
  cases b
  exact congrArg String.mk h

theorem str_lt_asymm {a b : String} (h : str_lt a b = true) : str_lt b a = false := by
  by_contra hc
  have hba : str_lt b a = true := by
    cases hx : str_lt b a
    · exact absurd hx hc
    · rfl
  have := str_lt_trans h hba
  rw [str_lt_irrefl] at this
  exact absurd this (by simp)

theorem str_lt_total {a b : String} (h1 : str_lt a b = false) (h2 : a ≠ b) :
    str_lt b a = true := by
  cases hx : str_lt b a
  · exact absurd (str_lt_antisymm h1 hx) h2
  · rfl

theorem str_lt_ne {a b : String} (h : str_lt a b = true) : a ≠ b := by
  rintro rfl
  rw [str_lt_irrefl] at h
  exact absurd h (by simp)

/-! ### Dictionary lemmas: `lookup_val`, `set_value`, canonicity -/

theorem lookup_set_value_self : ∀ (s : WState) (k : String) (v : Bool),
    lookup_val (set_value s k v) k = some v := by
  intro s
  induction s with
  | nil => intro k v; simp [set_value, lookup_val]
  | cons p rest ih =>
    intro k v
    obtain ⟨x, w⟩ := p
    by_cases h1 : str_lt k x = true
    · simp [set_value, h1, lookup_val]
    · by_cases h2 : k = x
      · subst h2
        simp [set_value, str_lt_irrefl, lookup_val]
      · simp only [set_value, if_neg h1, if_neg h2, lookup_val]
        rw [if_neg (fun hh => h2 hh.symm)]
        exact ih k v

theorem lookup_set_value_other : ∀ (s : WState) (k : String) (v : Bool) (k' : String),
    k' ≠ k → lookup_val (set_value s k v) k' = lookup_val s k' := by
  intro s
  induction s with
  | nil =>
    intro k v k' hne
    simp only [set_value, lookup_val]
    rw [if_neg (fun h => hne h.symm)]
  | cons p rest ih =>
    intro k v k' hne
    obtain ⟨x, w⟩ := p
    by_cases h1 : str_lt k x = true
    · simp only [set_value, if_pos h1, lookup_val]
      rw [if_neg (fun h => hne h.symm)]
    · by_cases h2 : k = x
      · subst h2
        have hred : set_value ((k, w) :: rest) k v = (k, v) :: rest := by
          simp [set_value, str_lt_irrefl]
        rw [hred]
        simp only [lookup_val]
        rw [if_neg (fun h => hne h.symm), if_neg (fun h => hne h.symm)]
      · simp only [set_value, if_neg h1, if_neg h2, lookup_val]
        by_cases h3 : x = k'
        · rw [if_pos h3, if_pos h3]
        · rw [if_neg h3, if_neg h3]
          exact ih k v k' hne

theorem set_value_mem : ∀ (s : WState) (k : String) (v : Bool) (y : String × Bool),
    y ∈ set_value s k v → y = (k, v) ∨ y ∈ s := by
  intro s
  induction s with
  | nil =>
    intro k v y hy
    simp only [set_value, List.mem_singleton] at hy
    left; exact hy
  | cons p rest ih =>
    intro k v y hy
    obtain ⟨x, w⟩ := p
    by_cases h1 : str_lt k x = true
    · simp only [set_value, if_pos h1, List.mem_cons] at hy
      rcases hy with h | h | h
      · left; exact h
      · right; rw [List.mem_cons]; left; exact h
      · right; rw [List.mem_cons]; right; exact h
    · by_cases h2 : k = x
      · simp only [set_value, if_neg h1, if_pos h2, List.mem_cons] at hy
        rcases hy with h | h
        · left; exact h
        · right; rw [List.mem_cons]; right; exact h
      · simp only [set_value, if_neg h1, if_neg h2, List.mem_cons] at hy
        rcases hy with h | h
        · right; rw [List.mem_cons]; left; exact h
        · rcases ih k v y h with h' | h'
          · left; exact h'
          · right; rw [List.mem_cons]; right; exact h'

theorem canon_set_value : ∀ (s : WState) (k : String) (v : Bool),
    canon_state s → canon_state (set_value s k v) := by
  intro s
  induction s with
  | nil => intro k v _; simp [set_value, canon_state]
  | cons p rest ih =>
    intro k v hc
    obtain ⟨x, w⟩ := p
    obtain ⟨hx, hrest⟩ := List.pairwise_cons.mp hc
    by_cases h1 : str_lt k x = true
    · simp only [set_value, if_pos h1]
      refine List.Pairwise.cons ?_ (List.Pairwise.cons hx hrest)
      intro y hy
      rcases List.mem_cons.mp hy with h | h
      · rw [h]; exact h1
      · exact str_lt_trans h1 (hx y h)
    · by_cases h2 : k = x
      · subst h2
        have hred : set_value ((k, w) :: rest) k v = (k, v) :: rest := by
          simp [set_value, str_lt_irrefl]
        rw [hred]
        exact List.Pairwise.cons hx hrest
      · simp only [set_value, if_neg h1, if_neg h2]
        refine List.Pairwise.cons ?_ (ih k v hrest)
        intro y hy
        rcases set_value_mem rest k v y hy with h | h
        · rw [h]
          exact str_lt_total (by simpa using h1) h2
        · exact hx y h

theorem state_keys_set_value : ∀ (s : WState) (k : String) (v : Bool) (x : String),
    x ∈ state_keys (set_value s k v) → x = k ∨ x ∈ state_keys s := by
  intro s k v x hx
  rw [state_keys, List.mem_map] at hx
  obtain ⟨y, hy, hxy⟩ := hx
  rcases set_value_mem s k v y hy with h | h
  · left; rw [← hxy, h]
  · right; rw [state_keys, List.mem_map]; exact ⟨y, h, hxy⟩

theorem canon_foldl_set_value : ∀ (l : List (String × Bool)) (s : WState),
    canon_state s → canon_state (l.foldl (fun st kv => set_value st kv.1 kv.2) s) := by
  intro l
  induction l with
  | nil => intro s hc; exact hc
  | cons kv rest ih => intro s hc; exact ih _ (canon_set_value s kv.1 kv.2 hc)

theorem canon_apply_effects (a : GoapAction) (s : WState) (hc : canon_state s) :
    canon_state (GOAPPlanner.apply_effects a s) :=
  canon_foldl_set_value a.effects s hc

theorem state_keys_foldl_set_value : ∀ (l : List (String × Bool)) (s : WState) (x : String),
    x ∈ state_keys (l.foldl (fun st kv => set_value st kv.1 kv.2) s) →
    x ∈ state_keys s ∨ x ∈ l.map Prod.fst := by
  intro l
  induction l with
  | nil => intro s x hx; left; exact hx
  | cons kv rest ih =>
    intro s x hx
    rcases ih (set_value s kv.1 kv.2) x hx with h | h
    · rcases state_keys_set_value s kv.1 kv.2 x h with h' | h'
      · right; simp [h']
      · left; exact h'
    · right
      simp only [List.map_cons, List.mem_cons]
      right; exact h

theorem state_keys_apply_effects (a : GoapAction) (s : WState) (x : String)
    (hx : x ∈ state_keys (GOAPPlanner.apply_effects a s)) :
    x ∈ state_keys s ∨ x ∈ a.effects.map Prod.fst :=
  state_keys_foldl_set_value a.effects s x hx

/-! ### Frontier extraction lemmas -/

theorem pop_min_eq_none : ∀ l : List Node, pop_min l = none → l = [] := by
  intro l h
  cases l with
  | nil => rfl
  | cons n ns =>
    rw [pop_min] at h
    rcases hx : pop_min ns with _ | ⟨m, rest⟩
    · rw [hx] at h
      dsimp only at h
      exact absurd h (by simp)
    · rw [hx] at h
      dsimp only at h
      by_cases hc : n.cost ≤ m.cost
      · rw [if_pos hc] at h; exact absurd h (by simp)
      · rw [if_neg hc] at h; exact absurd h (by simp)

theorem pop_min_perm : ∀ (l : List Node) (m : Node) (r : List Node),
    pop_min l = some (m, r) → l.Perm (m :: r) := by
  intro l
  induction l with
  | nil => intro m r h; exact absurd h (by simp [pop_min])
  | cons n ns ih =>
    intro m r h
    rw [pop_min] at h
    rcases hx : pop_min ns with _ | ⟨m', rest'⟩
    · rw [hx] at h
      dsimp only at h
      have hns : ns = [] := pop_min_eq_none ns hx
      subst hns
      obtain ⟨h1, h2⟩ := Prod.mk.injEq .. ▸ (Option.some.injEq .. ▸ h)
      rw [← h1, ← h2]
    · rw [hx] at h
      dsimp only at h
      by_cases hc : n.cost ≤ m'.cost
      · rw [if_pos hc] at h
        obtain ⟨h1, h2⟩ := Prod.mk.injEq .. ▸ (Option.some.injEq .. ▸ h)
        rw [← h1, ← h2]
      · rw [if_neg hc] at h
        obtain ⟨h1, h2⟩ := Prod.mk.injEq .. ▸ (Option.some.injEq .. ▸ h)
        have hp := ih m' rest' hx
        have hres := (List.Perm.cons n hp).trans (List.Perm.swap m' n rest')
        rw [h1, h2] at hres
        exact hres

theorem pop_min_min : ∀ (l : List Node) (m : Node) (r : List Node),
    pop_min l = some (m, r) → ∀ x ∈ l, m.cost ≤ x.cost := by
  intro l
  induction l with
  | nil => intro m r h; exact absurd h (by simp [pop_min])
  | cons n ns ih =>
    intro m r h x hx
    rw [pop_min] at h
    rcases hp : pop_min ns with _ | ⟨m', rest'⟩
    · rw [hp] at h
      dsimp only at h
      have hns : ns = [] := pop_min_eq_none ns hp
      subst hns
      obtain ⟨h1, _⟩ := Prod.mk.injEq .. ▸ (Option.some.injEq .. ▸ h)
      rcases List.mem_cons.mp hx with hh | hh
      · rw [← h1, hh]
      · exact absurd hh (List.not_mem_nil x)
    · rw [hp] at h
      dsimp only at h
      by_cases hc : n.cost ≤ m'.cost
      · rw [if_pos hc] at h
        obtain ⟨h1, _⟩ := Prod.mk.injEq .. ▸ (Option.some.injEq .. ▸ h)
        rcases List.mem_cons.mp hx with hh | hh
        · rw [← h1, hh]
        · exact le_trans (h1 ▸ hc) (ih m' rest' hp x hh)
      · rw [if_neg hc] at h
        obtain ⟨h1, _⟩ := Prod.mk.injEq .. ▸ (Option.some.injEq .. ▸ h)
        rcases List.mem_cons.mp hx with hh | hh
        · rw [← h1, hh]
          exact le_of_lt (lt_of_not_le (h1 ▸ hc))
        · exact h1 ▸ ih m' rest' hp x hh

theorem pop_min_mem {l : List Node} {m : Node} {r : List Node}
    (h : pop_min l = some (m, r)) : m ∈ l :=
  (pop_min_perm l m r h).symm.subset (List.mem_cons_self m r)

theorem pop_min_sub {l : List Node} {m : Node} {r : List Node}
    (h : pop_min l = some (m, r)) : ∀ x ∈ r, x ∈ l :=
  fun _x hx => (pop_min_perm l m r h).symm.subset (List.mem_cons_of_mem m hx)

/-! ### Execution of action sequences -/

theorem exec_seq_nil (s : WState) : exec_seq s [] = s := rfl

theorem exec_seq_cons (s : WState) (a : GoapAction) (l : List GoapAction) :
    exec_seq s (a :: l) = exec_seq (GOAPPlanner.apply_effects a s) l := rfl

theorem exec_seq_append (s : WState) (l₁ l₂ : List GoapAction) :
    exec_seq s (l₁ ++ l₂) = exec_seq (exec_seq s l₁) l₂ := by
  simp [exec_seq, List.foldl_append]

theorem exec_ok_cons {s : WState} {a : GoapAction} {l : List GoapAction} :
    exec_ok s (a :: l) = true ↔
      GOAPPlanner.can_perform a s = true ∧ exec_ok (GOAPPlanner.apply_effects a s) l = true := by
  simp [exec_ok, Bool.and_eq_true]

theorem exec_ok_append_one {s : WState} {l : List GoapAction} {a : GoapAction}
    (h : exec_ok s l = true) (hc : GOAPPlanner.can_perform a (exec_seq s l) = true) :
    exec_ok s (l ++ [a]) = true := by
  induction l generalizing s with
  | nil =>
    rw [List.nil_append, exec_ok_cons]
    exact ⟨hc, rfl⟩
  | cons b bs ih =>
    rw [List.cons_append, exec_ok_cons]
    rw [exec_ok_cons] at h
    exact ⟨h.1, ih h.2 (by rwa [← exec_seq_cons])⟩

theorem cost_of_nil : cost_of [] = 0 := rfl

theorem cost_of_cons (a : GoapAction) (l : List GoapAction) :
    cost_of (a :: l) = a.cost + cost_of l := by
  simp [cost_of]

theorem cost_of_append_one (l : List GoapAction) (a : GoapAction) :
    cost_of (l ++ [a]) = cost_of l + a.cost := by
  simp [cost_of]

theorem cost_of_nonneg {l : List GoapAction} (h : ∀ x ∈ l, 0 ≤ x.cost) : 0 ≤ cost_of l := by
  induction l with
  | nil => simp [cost_of]
  | cons a as ih =>
    rw [cost_of_cons]
    have h1 := h a (List.mem_cons_self a as)
    have h2 := ih fun x hx => h x (List.mem_cons_of_mem a hx)
    linarith

/-! ### Soundness of search nodes -/

theorem sound_node_init (A : List GoapAction) (S : WState) : sound_node A S ⟨S, [], 0⟩ := by
  refine ⟨rfl, rfl, rfl, ?_, fun _ => rfl⟩
  intro a ha
  exact absurd ha (List.not_mem_nil a)

theorem successors_mem_form {A : List GoapAction} {node n : Node}
    (h : n ∈ GOAPPlanner.successors A node) :
    ∃ a, a ∈ A ∧ GOAPPlanner.can_perform a node.state = true ∧
      n = ⟨GOAPPlanner.apply_effects a node.state, node.actions ++ [a], node.cost + a.cost⟩ := by
  rw [GOAPPlanner.successors, List.mem_map] at h
  obtain ⟨a, ha, hn⟩ := h
  rw [List.mem_filter] at ha
  exact ⟨a, ha.1, ha.2, hn.symm⟩

theorem successors_of_applicable {A : List GoapAction} {node : Node} {a : GoapAction}
    (ha : a ∈ A) (hc : GOAPPlanner.can_perform a node.state = true) :
    (⟨GOAPPlanner.apply_effects a node.state, node.actions ++ [a], node.cost + a.cost⟩ : Node)
      ∈ GOAPPlanner.successors A node := by
  rw [GOAPPlanner.successors, List.mem_map]
  exact ⟨a, List.mem_filter.mpr ⟨ha, hc⟩, rfl⟩

theorem sound_successors {A : List GoapAction} {S : WState} {node : Node}
    (hs : sound_node A S node) : ∀ n ∈ GOAPPlanner.successors A node, sound_node A S n := by
  intro n hn
  obtain ⟨a, haA, hcan, hform⟩ := successors_mem_form hn
  obtain ⟨hexec, hstate, hcost, hmem, _⟩ := hs
  subst hform
  refine ⟨?_, ?_, ?_, ?_, ?_⟩
  · exact exec_ok_append_one hexec (by rwa [hstate])
  · rw [exec_seq_append, hstate]
    rfl
  · rw [cost_of_append_one, hcost]
  · intro x hx
    rcases List.mem_append.mp hx with h | h
    · exact hmem x h
    · rw [List.mem_singleton.mp h]
      exact haA
  · intro h
    exact absurd h (by simp)

theorem plan_loop_sound {A : List GoapAction} {G : List (String × Bool)} {S : WState} :
    ∀ (fuel : Nat) (frontier : List Node) (explored : List WState) (p : List GoapAction),
    (∀ n ∈ frontier, sound_node A S n) →
    GOAPPlanner.plan_loop A G fuel frontier explored = some p → p ≠ [] →
    exec_ok S p = true ∧ GOAPPlanner.goals_satisfied G (exec_seq S p) = true ∧
      ∀ a ∈ p, a ∈ A := by
  intro fuel
  induction fuel with
  | zero =>
    intro frontier explored p _ hrun _
    exact absurd hrun (by simp [GOAPPlanner.plan_loop])
  | succ fuel ih =>
    intro frontier explored p hsound hrun hne
    rw [GOAPPlanner.plan_loop] at hrun
    rcases hpop : pop_min frontier with _ | ⟨node, rest⟩
    · rw [hpop] at hrun
      dsimp only at hrun
      exact absurd (Option.some.injEq .. ▸ hrun).symm hne
    · rw [hpop] at hrun
      dsimp only at hrun
      have hnode := hsound node (pop_min_mem hpop)
      by_cases hg : GOAPPlanner.goals_satisfied G node.state = true
      · rw [if_pos hg] at hrun
        have hp : node.actions = p := Option.some.injEq .. ▸ hrun
        obtain ⟨hexec, hstate, _, hmem, _⟩ := hnode
        subst hp
        exact ⟨hexec, by rwa [hstate], hmem⟩
      · rw [if_neg hg] at hrun
        by_cases hex : GOAPPlanner.state_hash node.state ∈ explored
        · rw [if_pos hex] at hrun
          exact ih rest explored p
            (fun n hn => hsound n (pop_min_sub hpop n hn)) hrun hne
        · rw [if_neg hex] at hrun
          refine ih _ _ p ?_ hrun hne
          intro n hn
          rcases List.mem_append.mp hn with h | h
          · exact hsound n (pop_min_sub hpop n h)
          · exact sound_successors hnode n h

/-! ### Reachability invariant: initialization, preservation, exhaustion -/

theorem cover_inv_init (A : List GoapAction) (G : List (String × Bool)) (S : WState) :
    cover_inv A G S [⟨S, [], 0⟩] [] := by
  refine ⟨by simp, by simp, Or.inr ⟨⟨S, [], 0⟩, List.mem_singleton.mpr rfl, rfl⟩⟩

theorem cover_inv_skip {A : List GoapAction} {G : List (String × Bool)} {S : WState}
    {frontier rest : List Node} {explored : List WState} {m : Node}
    (hpop : pop_min frontier = some (m, rest)) (hm : m.state ∈ explored)
    (hinv : cover_inv A G S frontier explored) : cover_inv A G S rest explored := by
  obtain ⟨hng, hcl, hstart⟩ := hinv
  have hperm := pop_min_perm _ _ _ hpop
  refine ⟨hng, ?_, ?_⟩
  · intro t ht a ha hcan
    rcases hcl t ht a ha hcan with h | ⟨n, hn, hstate⟩
    · left; exact h
    · rcases List.mem_cons.mp (hperm.subset hn) with heq | hmem
      · left; rw [← hstate, heq]; exact hm
      · right; exact ⟨n, hmem, hstate⟩
  · rcases hstart with h | ⟨n, hn, hstate⟩
    · left; exact h
    · rcases List.mem_cons.mp (hperm.subset hn) with heq | hmem
      · left; rw [← hstate, heq]; exact hm
      · right; exact ⟨n, hmem, hstate⟩

theorem cover_inv_explore {A : List GoapAction} {G : List (String × Bool)} {S : WState}
    {frontier rest : List Node} {explored : List WState} {m : Node}
    (hpop : pop_min frontier = some (m, rest))
    (hgoal : GOAPPlanner.goals_satisfied G m.state = false)
    (hinv : cover_inv A G S frontier explored) :
    cover_inv A G S (rest ++ GOAPPlanner.successors A m) (m.state :: explored) := by
  obtain ⟨hng, hcl, hstart⟩ := hinv
  have hperm := pop_min_perm _ _ _ hpop
  refine ⟨?_, ?_, ?_⟩
  · intro t ht
    rcases List.mem_cons.mp ht with h | h
    · rw [h]; exact hgoal
    · exact hng t h
  · intro t ht a ha hcan
    rcases List.mem_cons.mp ht with h | h
    · subst h
      right
      exact ⟨⟨GOAPPlanner.apply_effects a m.state, m.actions ++ [a], m.cost + a.cost⟩,
        List.mem_append.mpr (Or.inr (successors_of_applicable ha hcan)), rfl⟩
    · rcases hcl t h a ha hcan with h' | ⟨n, hn, hstate⟩
      · left; exact List.mem_cons_of_mem _ h'
      · rcases List.mem_cons.mp (hperm.subset hn) with heq | hmem
        · left; rw [← hstate, heq]; exact List.mem_cons_self ..
        · right; exact ⟨n, List.mem_append.mpr (Or.inl hmem), hstate⟩
  · rcases hstart with h | ⟨n, hn, hstate⟩
    · left; exact List.mem_cons_of_mem _ h
    · rcases List.mem_cons.mp (hperm.subset hn) with heq | hmem
      · left; rw [← hstate, heq]; exact List.mem_cons_self ..
      · right; exact ⟨n, List.mem_append.mpr (Or.inl hmem), hstate⟩

theorem exhausted_no_goal {A : List GoapAction} {G : List (String × Bool)} {S : WState}
    {explored : List WState} (hinv : cover_inv A G S [] explored) :
    ∀ q, (∀ a ∈ q, a ∈ A) → exec_ok S q = true →
      GOAPPlanner.goals_satisfied G (exec_seq S q) = false := by
  obtain ⟨hng, hcl, hstart⟩ := hinv
  have hS : S ∈ explored := by
    rcases hstart with h | ⟨n, hn, _⟩
    · exact h
    · exact absurd hn (List.not_mem_nil n)
  have hcl' : ∀ t ∈ explored, ∀ a ∈ A, GOAPPlanner.can_perform a t = true →
      GOAPPlanner.apply_effects a t ∈ explored := by
    intro t ht a ha hcan
    rcases hcl t ht a ha hcan with h | ⟨n, hn, _⟩
    · exact h
    · exact absurd hn (List.not_mem_nil n)
  have hwalk : ∀ (q : List GoapAction) (t : WState), t ∈ explored →
      (∀ a ∈ q, a ∈ A) → exec_ok t q = true → exec_seq t q ∈ explored := by
    intro q
    induction q with
    | nil => intro t ht _ _; exact ht
    | cons a q' ih =>
      intro t ht hqa hexec
      obtain ⟨hcan, hrest⟩ := exec_ok_cons.mp hexec
      rw [exec_seq_cons]
      exact ih _ (hcl' t ht a (hqa a (List.mem_cons_self ..)) hcan)
        (fun x hx => hqa x (List.mem_cons_of_mem _ hx)) hrest
  intro q hq hexec
  exact hng _ (hwalk q S hS hq hexec)

/-! ### Optimality invariant: initialization, preservation, minimality -/

theorem opt_inv_init (A : List GoapAction) (G : List (String × Bool)) (S : WState) :
    opt_inv A G S [⟨S, [], 0⟩] [] := by
  refine ⟨fun _ => 0, by simp, by simp, by simp,
    Or.inr ⟨⟨S, [], 0⟩, List.mem_singleton.mpr rfl, rfl, le_refl 0⟩⟩

theorem opt_inv_skip {A : List GoapAction} {G : List (String × Bool)} {S : WState}
    {frontier rest : List Node} {explored : List WState} {m : Node}
    (hpop : pop_min frontier = some (m, rest)) (hm : m.state ∈ explored)
    (hinv : opt_inv A G S frontier explored) : opt_inv A G S rest explored := by
  obtain ⟨D, hng, hDle, hcl, hstart⟩ := hinv
  have hperm := pop_min_perm _ _ _ hpop
  have hmem := pop_min_mem hpop
  have hsub := pop_min_sub hpop
  have hDm : D m.state ≤ m.cost := hDle m.state hm m hmem
  refine ⟨D, hng, ?_, ?_, ?_⟩
  · intro t ht n hn
    exact hDle t ht n (hsub n hn)
  · intro t ht a ha hcan
    rcases hcl t ht a ha hcan with ⟨h1, h2⟩ | ⟨n, hn, hstate, hcost⟩
    · left; exact ⟨h1, h2⟩
    · rcases List.mem_cons.mp (hperm.subset hn) with heq | hmem'
      · left
        have hnc : n.cost = m.cost := by rw [heq]
        constructor
        · rw [← hstate, heq]; exact hm
        · rw [← hstate, heq]
          linarith
      · right; exact ⟨n, hmem', hstate, hcost⟩
  · rcases hstart with ⟨h1, h2⟩ | ⟨n, hn, hstate, hcost⟩
    · left; exact ⟨h1, h2⟩
    · rcases List.mem_cons.mp (hperm.subset hn) with heq | hmem'
      · left
        have hnc : n.cost = m.cost := by rw [heq]
        constructor
        · rw [← hstate, heq]; exact hm
        · rw [← hstate, heq]
          linarith
      · right; exact ⟨n, hmem', hstate, hcost⟩

theorem opt_inv_explore {A : List GoapAction} {G : List (String × Bool)} {S : WState}
    {frontier rest : List Node} {explored : List WState} {m : Node}
    (hpos : ∀ a ∈ A, 0 ≤ a.cost)
    (hpop : pop_min frontier = some (m, rest))
    (hmnot : m.state ∉ explored)
    (hgoal : GOAPPlanner.goals_satisfied G m.state = false)
    (hinv : opt_inv A G S frontier explored) :
    opt_inv A G S (rest ++ GOAPPlanner.successors A m) (m.state :: explored) := by
  obtain ⟨D, hng, hDle, hcl, hstart⟩ := hinv
  have hperm := pop_min_perm _ _ _ hpop
  have hmem := pop_min_mem hpop
  have hsub := pop_min_sub hpop
  have hmin := pop_min_min _ _ _ hpop
  refine ⟨fun t => if t = m.state then m.cost else D t, ?_, ?_, ?_, ?_⟩
  · intro t ht
    rcases List.mem_cons.mp ht with h | h
    · rw [h]; exact hgoal
    · exact hng t h
  · intro t ht n hn
    dsimp only
    have hD : (if t = m.state then m.cost else D t) ≤ m.cost := by
      by_cases h : t = m.state
      · rw [if_pos h]
      · rw [if_neg h]
        rcases List.mem_cons.mp ht with h' | h'
        · exact absurd h' h
        · exact hDle t h' m hmem
    rcases List.mem_append.mp hn with h | h
    · exact le_trans hD (hmin n (hsub n h))
    · obtain ⟨a, haA, hcan, hform⟩ := successors_mem_form h
      have hnc : n.cost = m.cost + a.cost := by rw [hform]
      have hac := hpos a haA
      linarith
  · intro t ht a ha hcan
    dsimp only
    rcases List.mem_cons.mp ht with h | h
    · subst h
      right
      refine ⟨⟨GOAPPlanner.apply_effects a m.state, m.actions ++ [a], m.cost + a.cost⟩,
        List.mem_append.mpr (Or.inr (successors_of_applicable ha hcan)), rfl, ?_⟩
      dsimp only
      rw [if_pos rfl]
    · have htne : t ≠ m.state := fun he => hmnot (he ▸ h)
      rcases hcl t h a ha hcan with ⟨h1, h2⟩ | ⟨n, hn, hstate, hcost⟩
      · left
        have htar : GOAPPlanner.apply_effects a t ≠ m.state := fun he => hmnot (he ▸ h1)
        refine ⟨List.mem_cons_of_mem _ h1, ?_⟩
        rw [if_neg htar, if_neg htne]
        exact h2
      · rcases List.mem_cons.mp (hperm.subset hn) with heq | hmem'
        · left
          have happ : GOAPPlanner.apply_effects a t = m.state := by rw [← hstate, heq]
          have hnc : n.cost = m.cost := by rw [heq]
          refine ⟨happ ▸ List.mem_cons_self .., ?_⟩
          rw [if_pos happ, if_neg htne]
          linarith
        · right
          refine ⟨n, List.mem_append.mpr (Or.inl hmem'), hstate, ?_⟩
          rw [if_neg htne]
          exact hcost
  · dsimp only
    rcases hstart with ⟨h1, h2⟩ | ⟨n, hn, hstate, hcost⟩
    · left
      have hSne : S ≠ m.state := fun he => hmnot (he ▸ h1)
      refine ⟨List.mem_cons_of_mem _ h1, ?_⟩
      rw [if_neg hSne]
      exact h2
    · rcases List.mem_cons.mp (hperm.subset hn) with heq | hmem'
      · left
        have hSm : S = m.state := by rw [← hstate, heq]
        have hnc : n.cost = m.cost := by rw [heq]
        constructor
        · rw [hSm]; exact List.mem_cons_self ..
        · rw [if_pos hSm]
          linarith
      · right
        exact ⟨n, List.mem_append.mpr (Or.inl hmem'), hstate, hcost⟩

theorem frontier_min_le {A : List GoapAction} {G : List (String × Bool)} {S : WState}
    {frontier : List Node} {explored : List WState} {m : Node}
    (hpos : ∀ a ∈ A, 0 ≤ a.cost)
    (_hmem : m ∈ frontier)
    (hmin : ∀ x ∈ frontier, m.cost ≤ x.cost)
    (hinv : opt_inv A G S frontier explored)
    (q : List GoapAction) (hqA : ∀ a ∈ q, a ∈ A)
    (hqexec : exec_ok S q = true)
    (hqsat : GOAPPlanner.goals_satisfied G (exec_seq S q) = true) :
    m.cost ≤ cost_of q := by
  obtain ⟨D, hng, hDle, hcl, hstart⟩ := hinv
  have hwalk : ∀ (q' : List GoapAction) (t : WState) (c : ℚ), t ∈ explored → D t ≤ c →
      (∀ a ∈ q', a ∈ A) → exec_ok t q' = true →
      (exec_seq t q' ∈ explored ∧ D (exec_seq t q') ≤ c + cost_of q') ∨
        m.cost ≤ c + cost_of q' := by
    intro q'
    induction q' with
    | nil =>
      intro t c ht hD _ _
      left
      rw [exec_seq_nil, cost_of_nil]
      exact ⟨ht, by linarith⟩
    | cons a q' ih =>
      intro t c ht hD hqa hexec
      obtain ⟨hcan, hrest⟩ := exec_ok_cons.mp hexec
      have haA := hqa a (List.mem_cons_self ..)
      have hq'A : ∀ x ∈ q', x ∈ A := fun x hx => hqa x (List.mem_cons_of_mem _ hx)
      have hq'c : 0 ≤ cost_of q' := cost_of_nonneg fun x hx => hpos x (hq'A x hx)
      have hac := hpos a haA
      rw [exec_seq_cons, cost_of_cons]
      rcases hcl t ht a haA hcan with ⟨h1, h2⟩ | ⟨n, hn, hstate, hcost⟩
      · have hD' : D (GOAPPlanner.apply_effects a t) ≤ c + a.cost := by linarith
        rcases ih (GOAPPlanner.apply_effects a t) (c + a.cost) h1 hD' hq'A hrest with
          ⟨hm1, hm2⟩ | hm
        · left
          refine ⟨hm1, ?_⟩
          linarith
        · right; linarith
      · right
        have h1 : m.cost ≤ n.cost := hmin n hn
        linarith
  rcases hstart with ⟨hS, hDS⟩ | ⟨n, hn, hstate, hcost⟩
  · rcases hwalk q S 0 hS hDS hqA hqexec with ⟨hm1, _⟩ | hm
    · rw [hng _ hm1] at hqsat
      exact absurd hqsat (by simp)
    · linarith
  · have h1 : m.cost ≤ n.cost := hmin n hn
    have h2 : 0 ≤ cost_of q := cost_of_nonneg fun x hx => hpos x (hqA x hx)
    linarith

/-! ### Main loop lemmas: optimality and the empty result -/

theorem plan_loop_opt {A : List GoapAction} {G : List (String × Bool)} {S : WState}
    (hpos : ∀ a ∈ A, 0 ≤ a.cost) :
    ∀ (fuel : Nat) (frontier : List Node) (explored : List WState) (p : List GoapAction),
    (∀ n ∈ frontier, sound_node A S n) →
    opt_inv A G S frontier explored →
    GOAPPlanner.plan_loop A G fuel frontier explored = some p →
    ∀ q, (∀ a ∈ q, a ∈ A) → exec_ok S q = true →
      GOAPPlanner.goals_satisfied G (exec_seq S q) = true → cost_of p ≤ cost_of q := by
  intro fuel
  induction fuel with
  | zero =>
    intro frontier explored p _ _ hrun
    exact absurd hrun (by simp [GOAPPlanner.plan_loop])
  | succ fuel ih =>
    intro frontier explored p hsound hinv hrun q hqA hqexec hqsat
    rw [GOAPPlanner.plan_loop] at hrun
    rcases hpop : pop_min frontier with _ | ⟨node, rest⟩
    · rw [hpop] at hrun
      dsimp only at hrun
      have hfr : frontier = [] := pop_min_eq_none _ hpop
      subst hfr
      have hcov : cover_inv A G S [] explored := by
        obtain ⟨D, hng, hDle, hcl, hstart⟩ := hinv
        refine ⟨hng, ?_, ?_⟩
        · intro t ht a ha hcan
          rcases hcl t ht a ha hcan with ⟨h1, _⟩ | ⟨n, hn, hstate, _⟩
          · left; exact h1
          · right; exact ⟨n, hn, hstate⟩
        · rcases hstart with ⟨h1, _⟩ | ⟨n, hn, hstate, _⟩
          · left; exact h1
          · right; exact ⟨n, hn, hstate⟩
      have hno := exhausted_no_goal hcov q hqA hqexec
      rw [hno] at hqsat
      exact absurd hqsat (by simp)
    · rw [hpop] at hrun
      dsimp only at hrun
      have hnodemem := pop_min_mem hpop
      have hnode := hsound node hnodemem
      by_cases hg : GOAPPlanner.goals_satisfied G node.state = true
      · rw [if_pos hg] at hrun
        have hp : node.actions = p := Option.some.injEq .. ▸ hrun
        obtain ⟨_, _, hcost, _, _⟩ := hnode
        rw [← hp, hcost]
        exact frontier_min_le hpos hnodemem (pop_min_min _ _ _ hpop) hinv q hqA hqexec hqsat
      · rw [if_neg hg] at hrun
        by_cases hex : GOAPPlanner.state_hash node.state ∈ explored
        · rw [if_pos hex] at hrun
          exact ih rest explored p (fun n hn => hsound n (pop_min_sub hpop n hn))
            (opt_inv_skip hpop hex hinv) hrun q hqA hqexec hqsat
        · rw [if_neg hex] at hrun
          refine ih _ _ p ?_
            (opt_inv_explore hpos hpop hex (by simpa using hg) hinv) hrun q hqA hqexec hqsat
          intro n hn
          rcases List.mem_append.mp hn with h | h
          · exact hsound n (pop_min_sub hpop n h)
          · exact sound_successors hnode n h

theorem plan_loop_ret_empty {A : List GoapAction} {G : List (String × Bool)} {S : WState} :
    ∀ (fuel : Nat) (frontier : List Node) (explored : List WState),
    (∀ n ∈ frontier, sound_node A S n) →
    cover_inv A G S frontier explored →
    GOAPPlanner.plan_loop A G fuel frontier explored = some [] →
    GOAPPlanner.goals_satisfied G S = true ∨
      ∀ q, (∀ a ∈ q, a ∈ A) → exec_ok S q = true →
        GOAPPlanner.goals_satisfied G (exec_seq S q) = false := by
  intro fuel
  induction fuel with
  | zero =>
    intro frontier explored _ _ hrun
    exact absurd hrun (by simp [GOAPPlanner.plan_loop])
  | succ fuel ih =>
    intro frontier explored hsound hinv hrun
    rw [GOAPPlanner.plan_loop] at hrun
    rcases hpop : pop_min frontier with _ | ⟨node, rest⟩
    · rw [hpop] at hrun
      dsimp only at hrun
      have hfr : frontier = [] := pop_min_eq_none _ hpop
      subst hfr
      right
      exact exhausted_no_goal hinv
    · rw [hpop] at hrun
      dsimp only at hrun
      have hnode := hsound node (pop_min_mem hpop)
      by_cases hg : GOAPPlanner.goals_satisfied G node.state = true
      · rw [if_pos hg] at hrun
        have hp : node.actions = [] := Option.some.injEq .. ▸ hrun
        obtain ⟨_, _, _, _, hinit⟩ := hnode
        left
        rw [← hinit hp]
        exact hg
      · rw [if_neg hg] at hrun
        by_cases hex : GOAPPlanner.state_hash node.state ∈ explored
        · rw [if_pos hex] at hrun
          exact ih rest explored (fun n hn => hsound n (pop_min_sub hpop n hn))
            (cover_inv_skip hpop hex hinv) hrun
        · rw [if_neg hex] at hrun
          refine ih _ _ ?_ (cover_inv_explore hpop (by simpa using hg) hinv) hrun
          intro n hn
          rcases List.mem_append.mp hn with h | h
          · exact hsound n (pop_min_sub hpop n h)
          · exact sound_successors hnode n h

/-! ### Key universe and finite state space -/

theorem insert_key_sorted_mem : ∀ (l : List String) (k x : String),
    x ∈ GOAPPlanner.insert_key_sorted l k ↔ x = k ∨ x ∈ l := by
  intro l
  induction l with
  | nil => intro k x; simp [GOAPPlanner.insert_key_sorted]
  | cons y ys ih =>
    intro k x
    by_cases h1 : str_lt k y = true
    · simp [GOAPPlanner.insert_key_sorted, h1]
    · by_cases h2 : k = y
      · subst h2
        simp only [GOAPPlanner.insert_key_sorted, if_neg h1, if_pos rfl]
        constructor
        · intro h; right; exact h
        · intro h
          rcases h with h | h
          · rw [h]; exact List.mem_cons_self ..
          · exact h
      · simp only [GOAPPlanner.insert_key_sorted, if_neg h1, if_neg h2, List.mem_cons, ih]
        tauto

theorem insert_key_sorted_sorted : ∀ (l : List String) (k : String),
    sorted_keys l → sorted_keys (GOAPPlanner.insert_key_sorted l k) := by
  intro l
  induction l with
  | nil => intro k _; simp [GOAPPlanner.insert_key_sorted]
  | cons y ys ih =>
    intro k hs
    obtain ⟨hy, hys⟩ := List.pairwise_cons.mp hs
    by_cases h1 : str_lt k y = true
    · simp only [GOAPPlanner.insert_key_sorted, if_pos h1]
      refine List.Pairwise.cons ?_ (List.Pairwise.cons hy hys)
      intro z hz
      rcases List.mem_cons.mp hz with h | h
      · rw [h]; exact h1
      · exact str_lt_trans h1 (hy z h)
    · by_cases h2 : k = y
      · simp only [GOAPPlanner.insert_key_sorted, if_neg h1, if_pos h2]
        exact List.Pairwise.cons hy hys
      · simp only [GOAPPlanner.insert_key_sorted, if_neg h1, if_neg h2]
        refine List.Pairwise.cons ?_ (ih k hys)
        intro z hz
        rcases (insert_key_sorted_mem ys k z).mp hz with h | h
        · rw [h]
          exact str_lt_total (by simpa using h1) h2
        · exact hy z h

theorem foldl_insert_sorted : ∀ (l : List String) (acc : List String),
    sorted_keys acc → sorted_keys (l.foldl GOAPPlanner.insert_key_sorted acc) := by
  intro l
  induction l with
  | nil => intro acc h; exact h
  | cons y ys ih => intro acc h; exact ih _ (insert_key_sorted_sorted acc y h)

theorem foldl_insert_mem_acc : ∀ (l : List String) (acc : List String) (x : String),
    x ∈ acc → x ∈ l.foldl GOAPPlanner.insert_key_sorted acc := by
  intro l
  induction l with
  | nil => intro acc x h; exact h
  | cons y ys ih =>
    intro acc x h
    exact ih _ x ((insert_key_sorted_mem acc y x).mpr (Or.inr h))

theorem foldl_insert_mem : ∀ (l : List String) (acc : List String) (x : String),
    x ∈ l → x ∈ l.foldl GOAPPlanner.insert_key_sorted acc := by
  intro l
  induction l with
  | nil => intro acc x h; exact absurd h (List.not_mem_nil x)
  | cons y ys ih =>
    intro acc x h
    rcases List.mem_cons.mp h with h | h
    · subst h
      exact foldl_insert_mem_acc ys _ x ((insert_key_sorted_mem acc x x).mpr (Or.inl rfl))
    · exact ih _ x h

theorem key_universe_sorted (A : List GoapAction) (S : WState) :
    sorted_keys (GOAPPlanner.key_universe A S) :=
  foldl_insert_sorted _ [] List.Pairwise.nil

theorem key_universe_mem_state {A : List GoapAction} {S : WState} {k : String}
    (h : k ∈ state_keys S) : k ∈ GOAPPlanner.key_universe A S :=
  foldl_insert_mem _ [] k (List.mem_append.mpr (Or.inl h))

theorem key_universe_mem_effect {A : List GoapAction} {S : WState} {a : GoapAction}
    {k : String} (ha : a ∈ A) (h : k ∈ a.effects.map Prod.fst) :
    k ∈ GOAPPlanner.key_universe A S :=
  foldl_insert_mem _ [] k (List.mem_append.mpr (Or.inr (List.mem_flatMap.mpr ⟨a, ha, h⟩)))

theorem sorted_keys_head_not_mem {k : String} {ks : List String}
    (h : sorted_keys (k :: ks)) : k ∉ ks := by
  intro hk
  have := (List.pairwise_cons.mp h).1 k hk
  rw [str_lt_irrefl] at this
  exact absurd this (by simp)

theorem all_states_keys : ∀ (K : List String) (s : WState),
    s ∈ GOAPPlanner.all_states K → ∀ x ∈ state_keys s, x ∈ K := by
  intro K
  induction K with
  | nil =>
    intro s hs x hx
    simp only [GOAPPlanner.all_states, List.mem_singleton] at hs
    subst hs
    exact absurd hx (List.not_mem_nil x)
  | cons k ks ih =>
    intro s hs x hx
    simp only [GOAPPlanner.all_states, List.mem_append, List.mem_map] at hs
    rcases hs with (hs | ⟨s', hs', heq⟩) | ⟨s', hs', heq⟩
    · exact List.mem_cons_of_mem _ (ih s hs x hx)
    · subst heq
      rcases List.mem_cons.mp hx with h | h
      · rw [h]; exact List.mem_cons_self ..
      · exact List.mem_cons_of_mem _ (ih s' hs' x h)
    · subst heq
      rcases List.mem_cons.mp hx with h | h
      · rw [h]; exact List.mem_cons_self ..
      · exact List.mem_cons_of_mem _ (ih s' hs' x h)

theorem all_states_key_not_mem {K : List String} {k : String} {s : WState}
    (hs : s ∈ GOAPPlanner.all_states K) (hk : k ∉ K) : k ∉ state_keys s :=
  fun h => hk (all_states_keys K s hs k h)

theorem all_states_nodup : ∀ (K : List String), sorted_keys K →
    (GOAPPlanner.all_states K).Nodup := by
  intro K
  induction K with
  | nil => intro _; simp [GOAPPlanner.all_states]
  | cons k ks ih =>
    intro hs
    obtain ⟨_, hks⟩ := List.pairwise_cons.mp hs
    have hknot := sorted_keys_head_not_mem hs
    have hnd := ih hks
    rw [GOAPPlanner.all_states]
    have hinj_t : ∀ s' : WState, Function.Injective fun s : WState => (k, true) :: s :=
      fun _ _ _ h => List.tail_eq_of_cons_eq h
    refine List.Nodup.append (List.Nodup.append hnd ?_ ?_) ?_ ?_
    · exact hnd.map fun _ _ h => List.tail_eq_of_cons_eq h
    · intro s hs1 hs2
      rw [List.mem_map] at hs2
      obtain ⟨s', hs', heq⟩ := hs2
      have : k ∈ state_keys s := by
        rw [← heq]
        exact List.mem_cons_self ..
      exact all_states_key_not_mem hs1 hknot this
    · exact hnd.map fun _ _ h => List.tail_eq_of_cons_eq h
    · intro s hs1 hs2
      rw [List.mem_map] at hs2
      obtain ⟨s', hs', heq⟩ := hs2
      rcases List.mem_append.mp hs1 with h | h
      · have : k ∈ state_keys s := by
          rw [← heq]
          exact List.mem_cons_self ..
        exact all_states_key_not_mem h hknot this
      · rw [List.mem_map] at h
        obtain ⟨s'', _, heq'⟩ := h
        rw [← heq'] at heq
        exact absurd (List.head_eq_of_cons_eq heq) (by simp)

theorem all_states_complete : ∀ (K : List String), sorted_keys K →
    ∀ s : WState, canon_state s → (∀ x ∈ state_keys s, x ∈ K) →
    s ∈ GOAPPlanner.all_states K := by
  intro K
  induction K with
  | nil =>
    intro _ s _ hkeys
    cases s with
    | nil => simp [GOAPPlanner.all_states]
    | cons p rest =>
      exact absurd (hkeys p.1 (List.mem_cons_self ..)) (List.not_mem_nil p.1)
  | cons k ks ih =>
    intro hs s hcanon hkeys
    obtain ⟨_, hks⟩ := List.pairwise_cons.mp hs
    rw [GOAPPlanner.all_states]
    cases s with
    | nil =>
      apply List.mem_append.mpr
      left
      apply List.mem_append.mpr
      left
      exact ih hks [] List.Pairwise.nil (by simp [state_keys])
    | cons p rest =>
      obtain ⟨x, v⟩ := p
      obtain ⟨hx, hrest⟩ := List.pairwise_cons.mp hcanon
      have hxK : x ∈ k :: ks := hkeys x (List.mem_cons_self ..)
      by_cases hxk : x = k
      · subst hxk
        have hrestkeys : ∀ y ∈ state_keys rest, y ∈ ks := by
          intro y hy
          simp only [state_keys, List.mem_map] at hy
          obtain ⟨q, hq, hqy⟩ := hy
          have hyK : y ∈ x :: ks := hkeys y (by
            simp only [state_keys, List.map_cons]
            exact List.mem_cons_of_mem _ (List.mem_map.mpr ⟨q, hq, hqy⟩))
          rcases List.mem_cons.mp hyK with h | h
          · exfalso
            have := hx q hq
            rw [hqy, h] at this
            rw [str_lt_irrefl] at this
            exact absurd this (by simp)
          · exact h
        have hmem := ih hks rest hrest hrestkeys
        cases v
        · apply List.mem_append.mpr
          right
          exact List.mem_map.mpr ⟨rest, hmem, rfl⟩
        · apply List.mem_append.mpr
          left
          apply List.mem_append.mpr
          right
          exact List.mem_map.mpr ⟨rest, hmem, rfl⟩
      · have hxks : x ∈ ks := by
          rcases List.mem_cons.mp hxK with h | h
          · exact absurd h hxk
          · exact h
        have hkx : str_lt k x = true := (List.pairwise_cons.mp hs).1 x hxks
        have hknotin : k ∉ state_keys ((x, v) :: rest) := by
          intro hk
          simp only [state_keys, List.map_cons, List.mem_cons] at hk
          rcases hk with h | h
          · exact hxk (h.symm ▸ rfl)
          · simp only [state_keys, List.mem_map] at h
            obtain ⟨q, hq, hqk⟩ := h
            have hxq := hx q hq
            rw [hqk] at hxq
            have := str_lt_trans hkx hxq
            rw [str_lt_irrefl] at this
            exact absurd this (by simp)
        have hkeys' : ∀ y ∈ state_keys ((x, v) :: rest), y ∈ ks := by
          intro y hy
          rcases List.mem_cons.mp (hkeys y hy) with h | h
          · exact absurd (h ▸ hy) hknotin
          · exact h
        apply List.mem_append.mpr
        left
        apply List.mem_append.mpr
        left
        exact ih hks _ hcanon hkeys'

theorem successors_length_le (A : List GoapAction) (node : Node) :
    (GOAPPlanner.successors A node).length ≤ A.length := by
  rw [GOAPPlanner.successors, List.length_map]
  exact List.length_filter_le _ _

/-! ### Termination: sufficient fuel for the search loop -/

theorem plan_loop_total {A : List GoapAction} {G : List (String × Bool)} {K : List String}
    (hK : sorted_keys K)
    (hEff : ∀ a ∈ A, ∀ x ∈ a.effects.map Prod.fst, x ∈ K) :
    ∀ (fuel : Nat) (frontier : List Node) (explored : List WState),
    (∀ n ∈ frontier, canon_state n.state ∧ ∀ x ∈ state_keys n.state, x ∈ K) →
    (∀ t ∈ explored, t ∈ GOAPPlanner.all_states K) → explored.Nodup →
    (A.length + 1) * ((GOAPPlanner.all_states K).length - explored.length)
      + frontier.length + 1 ≤ fuel →
    (GOAPPlanner.plan_loop A G fuel frontier explored).isSome = true := by
  intro fuel
  induction fuel with
  | zero =>
    intro frontier explored _ _ _ hle
    exact absurd hle (Nat.not_succ_le_zero _)
  | succ fuel ih =>
    intro frontier explored hfr hex hnd hle
    rw [GOAPPlanner.plan_loop]
    rcases hpop : pop_min frontier with _ | ⟨node, rest⟩
    · simp
    · dsimp only
      by_cases hg : GOAPPlanner.goals_satisfied G node.state = true
      · rw [if_pos hg]; simp
      · rw [if_neg hg]
        have hlen : frontier.length = rest.length + 1 := by
          have h := (pop_min_perm _ _ _ hpop).length_eq
          simpa using h
        have hnodeK := hfr node (pop_min_mem hpop)
        by_cases hexm : GOAPPlanner.state_hash node.state ∈ explored
        · rw [if_pos hexm]
          apply ih rest explored (fun n hn => hfr n (pop_min_sub hpop n hn)) hex hnd
          revert hle
          generalize (A.length + 1) * ((GOAPPlanner.all_states K).length - explored.length) = M
          omega
        · rw [if_neg hexm]
          have hnodemem : node.state ∈ GOAPPlanner.all_states K :=
            all_states_complete K hK node.state hnodeK.1 hnodeK.2
          have hexlt : explored.length < (GOAPPlanner.all_states K).length := by
            have hsub : ∀ t ∈ (GOAPPlanner.state_hash node.state :: explored),
                t ∈ GOAPPlanner.all_states K := by
              intro t ht
              rcases List.mem_cons.mp ht with h | h
              · rw [h]; exact hnodemem
              · exact hex t h
            have hnd' : (GOAPPlanner.state_hash node.state :: explored).Nodup :=
              List.Nodup.cons hexm hnd
            have hlen' := (hnd'.subperm hsub).length_le
            simpa using hlen'
          apply ih
          · intro n hn
            rcases List.mem_append.mp hn with h | h
            · exact hfr n (pop_min_sub hpop n h)
            · obtain ⟨a, haA, hcan, hform⟩ := successors_mem_form h
              subst hform
              refine ⟨canon_apply_effects a node.state hnodeK.1, ?_⟩
              intro x hx
              rcases state_keys_apply_effects a node.state x hx with h' | h'
              · exact hnodeK.2 x h'
              · exact hEff a haA x h'
          · intro t ht
            rcases List.mem_cons.mp ht with h | h
            · rw [h]; exact hnodemem
            · exact hex t h
          · exact List.Nodup.cons hexm hnd
          · have hsucc := successors_length_le A node
            have hsplit : (GOAPPlanner.all_states K).length - explored.length
                = ((GOAPPlanner.all_states K).length - (explored.length + 1)) + 1 := by
              omega
            rw [hsplit, Nat.mul_succ] at hle
            rw [List.length_append, List.length_cons]
            revert hle hsucc
            generalize (A.length + 1) *
              ((GOAPPlanner.all_states K).length - (explored.length + 1)) = M
            intro hle hsucc
            omega

theorem plan_search_isSome {A : List GoapAction} {G : List (String × Bool)} {S : WState}
    (hS : canon_state S) : (GOAPPlanner.plan_search A G S).isSome = true := by
  rw [GOAPPlanner.plan_search, GOAPPlanner.plan_bound]
  apply plan_loop_total (key_universe_sorted A S)
    (fun a ha x hx => key_universe_mem_effect ha hx)
  · intro n hn
    rw [List.mem_singleton.mp hn]
    exact ⟨hS, fun x hx => key_universe_mem_state hx⟩
  · intro t ht
    exact absurd ht (List.not_mem_nil t)
  · exact List.nodup_nil
  · simp

/-! ### Top-level planner lemmas -/

theorem plan_search_eq_of_plan {A : List GoapAction} {G : List (String × Bool)} {S : WState}
    {p : List GoapAction} (hp : GOAPPlanner.plan A G S = p) (hne : p ≠ []) :
    GOAPPlanner.plan_search A G S = some p := by
  rw [GOAPPlanner.plan] at hp
  rcases h : GOAPPlanner.plan_search A G S with _ | q
  · rw [h] at hp
    simp only [Option.getD_none] at hp
    exact absurd hp.symm hne
  · rw [h] at hp
    simp only [Option.getD_some] at hp
    rw [hp]

theorem init_frontier_sound (A : List GoapAction) (S : WState) :
    ∀ n ∈ ([⟨S, [], 0⟩] : List Node), sound_node A S n := by
  intro n hn
  rw [List.mem_singleton.mp hn]
  exact sound_node_init A S

theorem plan_sound {A : List GoapAction} {G : List (String × Bool)} {S : WState}
    {p : List GoapAction} (hp : GOAPPlanner.plan A G S = p) (hne : p ≠ []) :
    exec_ok S p = true ∧ GOAPPlanner.goals_satisfied G (exec_seq S p) = true ∧
      ∀ a ∈ p, a ∈ A := by
  have hs := plan_search_eq_of_plan hp hne
  rw [GOAPPlanner.plan_search] at hs
  exact plan_loop_sound _ _ _ p (init_frontier_sound A S) hs hne

theorem plan_opt {A : List GoapAction} {G : List (String × Bool)} {S : WState}
    {p : List GoapAction} (hpos : ∀ a ∈ A, 0 ≤ a.cost)
    (hp : GOAPPlanner.plan A G S = p) (hne : p ≠ []) :
    ∀ q, (∀ a ∈ q, a ∈ A) → exec_ok S q = true →
      GOAPPlanner.goals_satisfied G (exec_seq S q) = true → cost_of p ≤ cost_of q := by
  have hs := plan_search_eq_of_plan hp hne
  rw [GOAPPlanner.plan_search] at hs
  exact plan_loop_opt hpos _ _ _ p (init_frontier_sound A S) (opt_inv_init A G S) hs

theorem plan_goal_init {A : List GoapAction} {G : List (String × Bool)} {S : WState}
    (hg : GOAPPlanner.goals_satisfied G S = true) : GOAPPlanner.plan A G S = [] := by
  rw [GOAPPlanner.plan, GOAPPlanner.plan_search]
  obtain ⟨m, hm⟩ : ∃ m, GOAPPlanner.plan_bound A S = m + 1 :=
    ⟨(A.length + 1) * (GOAPPlanner.all_states (GOAPPlanner.key_universe A S)).length + 1, rfl⟩
  rw [hm, GOAPPlanner.plan_loop]
  rw [show pop_min [⟨S, [], 0⟩] = some (⟨S, [], 0⟩, []) from rfl]
  dsimp only
  rw [if_pos hg]
  rfl

theorem plan_empty_iff {A : List GoapAction} {G : List (String × Bool)} {S : WState}
    (hS : canon_state S) :
    GOAPPlanner.plan A G S = [] ↔
      (GOAPPlanner.goals_satisfied G S = true ∨
        ∀ q, (∀ a ∈ q, a ∈ A) → exec_ok S q = true →
          GOAPPlanner.goals_satisfied G (exec_seq S q) = false) := by
  constructor
  · intro hp
    have hsome := plan_search_isSome (A := A) (G := G) hS
    rcases h : GOAPPlanner.plan_search A G S with _ | p
    · rw [h] at hsome
      exact absurd hsome (by simp)
    · rw [GOAPPlanner.plan, h, Option.getD_some] at hp
      subst hp
      rw [GOAPPlanner.plan_search] at h
      exact plan_loop_ret_empty _ _ _ (init_frontier_sound A S) (cover_inv_init A G S) h
  · intro h
    rcases h with hg | hunreach
    · exact plan_goal_init hg
    · by_contra hne
      obtain ⟨hexec, hsat, hmem⟩ := plan_sound rfl hne
      rw [hunreach _ hmem hexec] at hsat
      exact absurd hsat (by simp)

/-! ### Effect-key framing lemmas (for the Collector fallback claim) -/

theorem lookup_foldl_set_value_other : ∀ (l : List (String × Bool)) (s : WState) (k : String),
    k ∉ l.map Prod.fst →
    lookup_val (l.foldl (fun st kv => set_value st kv.1 kv.2) s) k = lookup_val s k := by
  intro l
  induction l with
  | nil => intro s k _; rfl
  | cons kv rest ih =>
    intro s k hk
    simp only [List.map_cons, List.mem_cons] at hk
    push_neg at hk
    rw [List.foldl_cons, ih _ k (by simpa using hk.2)]
    exact lookup_set_value_other s kv.1 kv.2 k hk.1

theorem lookup_apply_effects_other (a : GoapAction) (s : WState) (k : String)
    (h : k ∉ a.effects.map Prod.fst) :
    lookup_val (GOAPPlanner.apply_effects a s) k = lookup_val s k :=
  lookup_foldl_set_value_other a.effects s k h

theorem can_perform_precondition {a : GoapAction} {s : WState} {kv : String × Bool}
    (h : GOAPPlanner.can_perform a s = true) (hkv : kv ∈ a.preconditions) :
    lookup_val s kv.1 = some kv.2 := by
  rw [GOAPPlanner.can_perform, List.all_eq_true] at h
  have := h kv hkv
  simpa using this

theorem no_fallback_walk : ∀ (q : List GoapAction) (S : WState),
    lookup_val S "api_available" = some true →
    (∀ a ∈ q, a ∈ collector_actions) → exec_ok S q = true →
    "fallback_api_scraping" ∉ q.map GoapAction.name := by
  intro q
  induction q with
  | nil => intro S _ _ _; simp
  | cons a q' ih =>
    intro S hapi hmem hexec
    obtain ⟨hcan, hrest⟩ := exec_ok_cons.mp hexec
    have haA := hmem a (List.mem_cons_self ..)
    simp only [collector_actions, List.mem_cons, List.not_mem_nil, or_false] at haA
    have hname : a.name ≠ "fallback_api_scraping" := by
      intro hn
      have hpre : (("api_available", false) : String × Bool) ∈ a.preconditions := by
        rcases haA with rfl | rfl | rfl | rfl
        · exact absurd hn (by decide)
        · exact absurd hn (by decide)
        · exact absurd hn (by decide)
        · decide
      have hl := can_perform_precondition hcan hpre
      rw [hapi] at hl
      exact absurd hl (by simp)
    have hkeys : "api_available" ∉ a.effects.map Prod.fst := by
      rcases haA with rfl | rfl | rfl | rfl
      · decide
      · decide
      · decide
      · decide
    have hapi' : lookup_val (GOAPPlanner.apply_effects a S) "api_available" = some true := by
      rw [lookup_apply_effects_other a S _ hkeys]
      exact hapi
    rw [List.map_cons]
    intro hcontra
    rcases List.mem_cons.mp hcontra with h | h
    · exact hname h.symm
    · exact ih (GOAPPlanner.apply_effects a S) hapi'
        (fun x hx => hmem x (List.mem_cons_of_mem _ hx)) hrest h

/-! ### Claim theorems for the planner -/

/-- C1: For every finite action catalog (all costs positive), goal mapping
and initial world state, if `GOAPPlanner.plan` returns a non-empty action
sequence, then no other sequence of catalog actions that is executable
from the initial state and whose final state satisfies the goals has a
strictly smaller total cost than the returned sequence. -/
theorem C1_plan_cost_optimal (A : List GoapAction) (G : List (String × Bool)) (S : WState)
    (hpos : ∀ a ∈ A, 0 < a.cost) (p : List GoapAction)
    (hp : GOAPPlanner.plan A G S = p) (hne : p ≠ [])
    (q : List GoapAction) (hqA : ∀ a ∈ q, a ∈ A)
    (hqexec : exec_ok S q = true)
    (hqsat : GOAPPlanner.goals_satisfied G (exec_seq S q) = true) :
    cost_of p ≤ cost_of q :=
  plan_opt (fun a ha => le_of_lt (hpos a ha)) hp hne q hqA hqexec hqsat

/-- Witness for C1 at the Orchestrator catalog: the plan returned from the
all-false state costs no more than the executable satisfying sequence that
runs all five actions in catalog order. -/
theorem C1_plan_cost_optimal_witness :
    (∀ a ∈ orchestrator_actions, 0 < a.cost) ∧
    cost_of (GOAPPlanner.plan orchestrator_actions orchestrator_goals orchestrator_state0)
      ≤ cost_of orchestrator_actions := by
  refine ⟨by with_unfolding_all decide, ?_⟩
  exact C1_plan_cost_optimal orchestrator_actions orchestrator_goals orchestrator_state0
    (by with_unfolding_all decide) _ rfl (by with_unfolding_all decide)
    orchestrator_actions (by with_unfolding_all decide) (by with_unfolding_all decide)
    (by with_unfolding_all decide)

/-- C2 counterexample: with the empty catalog, goal `{"g": true}` and the
initial state `{"g": true}`, `plan` returns the empty sequence even though
a state satisfying the goal — the initial state itself — is reachable by a
finite (here empty) sequence of applicable actions, refuting the claimed
equivalence as stated. -/
theorem C2_counterexample :
    GOAPPlanner.plan [] [("g", true)] [("g", true)] = [] ∧
    exec_ok [("g", true)] [] = true ∧
    GOAPPlanner.goals_satisfied [("g", true)] (exec_seq [("g", true)] []) = true := by
  with_unfolding_all decide

/-- C2 (amended): for every catalog, goal mapping and canonical initial
state, the search loop terminates within its fuel (the loop never raises),
and `plan` returns the empty sequence iff the initial state already
satisfies the goals or no state satisfying the goals is reachable from it
by a sequence of applicable catalog actions. -/
theorem C2_plan_empty_characterization (A : List GoapAction) (G : List (String × Bool))
    (S : WState) (hS : canon_state S) :
    (GOAPPlanner.plan_search A G S).isSome = true ∧
    (GOAPPlanner.plan A G S = [] ↔
      (GOAPPlanner.goals_satisfied G S = true ∨
        ∀ q, (∀ a ∈ q, a ∈ A) → exec_ok S q = true →
          GOAPPlanner.goals_satisfied G (exec_seq S q) = false)) :=
  ⟨plan_search_isSome hS, plan_empty_iff hS⟩

/-- Witness for C2 at the Orchestrator catalog and all-false state. -/
theorem C2_plan_empty_characterization_witness :
    canon_state orchestrator_state0 ∧
    (GOAPPlanner.plan_search orchestrator_actions orchestrator_goals
      orchestrator_state0).isSome = true :=
  ⟨by decide, (C2_plan_empty_characterization orchestrator_actions orchestrator_goals
    orchestrator_state0 (by decide)).1⟩

/-- C4 counterexample: from the Orchestrator state in which
`data_analyzed` is true while `data_collected` is false, `plan` returns
the three-action plan `[research_audience, evaluate_niches,
make_decision]` — not the full five-action plan — and it omits
`collect_data`, refuting the claim that out-of-order flags still produce
the full ordered plan. -/
theorem C4_counterexample :
    (GOAPPlanner.plan orchestrator_actions orchestrator_goals
        orchestrator_state_out_of_order).map GoapAction.name
      = ["research_audience", "evaluate_niches", "make_decision"] ∧
    "collect_data" ∉ (GOAPPlanner.plan orchestrator_actions orchestrator_goals
        orchestrator_state_out_of_order).map GoapAction.name := by
  with_unfolding_all decide

/-- C4 (amended): from the all-flags-false state `run_workflow` emits the
full dependency-ordered command sequence collect, analyze, research,
evaluate, decide; from a state whose flags are set out of dependency order
(`data_analyzed` true, `data_collected` false) the planner plans from the
flags as given and emits the shorter sequence that omits `collect_data`. -/
theorem C4_orchestrator_plans :
    run_workflow orchestrator_state0
      = ["collect_data", "analyze_data", "research_audience", "evaluate_niches",
         "make_decision"] ∧
    run_workflow orchestrator_state_out_of_order
      = ["research_audience", "evaluate_niches", "make_decision"] := by
  with_unfolding_all decide

/-- C5: For every action catalog, goal mapping and initial state, if
`GOAPPlanner.plan` returns a non-empty sequence, then applying those
actions' effects in the returned order starting from the initial state
(via `apply_effects`, i.e. `exec_seq`) yields a state in which
`goals_satisfied` holds. -/
theorem C5_plan_reaches_goal (A : List GoapAction) (G : List (String × Bool)) (S : WState)
    (p : List GoapAction) (hp : GOAPPlanner.plan A G S = p) (hne : p ≠ []) :
    GOAPPlanner.goals_satisfied G (exec_seq S p) = true :=
  (plan_sound hp hne).2.1

/-- Witness for C5 at the Data Collector: executing the returned
collection plan from the initial collector state satisfies the collector
goals. -/
theorem C5_plan_reaches_goal_witness :
    GOAPPlanner.goals_satisfied collector_goals
      (exec_seq collector_state
        (GOAPPlanner.plan collector_actions collector_goals collector_state)) = true :=
  C5_plan_reaches_goal collector_actions collector_goals collector_state _ rfl
    (by with_unfolding_all decide)

/-- C8: For every initial Data Collector state in which `api_available`
is true, the plan returned by `GOAPPlanner.plan` over the Collector's
catalog and goals never contains the `fallback_api_scraping` action: no
collector action affects `api_available`, so the fallback's precondition
`api_available = false` can never hold along the plan. -/
theorem C8_no_fallback_when_api_true (S : WState)
    (hapi : lookup_val S "api_available" = some true) :
    "fallback_api_scraping" ∉
      (GOAPPlanner.plan collector_actions collector_goals S).map GoapAction.name := by
  rcases hp : GOAPPlanner.plan collector_actions collector_goals S with _ | ⟨a, rest⟩
  · simp
  · obtain ⟨hexec, _, hmem⟩ := plan_sound hp (by simp)
    exact no_fallback_walk (a :: rest) S hapi hmem hexec

/-- Witness for C8 at the collector's initial state. -/
theorem C8_no_fallback_when_api_true_witness :
    lookup_val collector_state "api_available" = some true ∧
    "fallback_api_scraping" ∉
      (GOAPPlanner.plan collector_actions collector_goals collector_state).map
        GoapAction.name :=
  ⟨by decide, C8_no_fallback_when_api_true collector_state (by decide)⟩

/-! ### DecisionMaker: Python `max` characterization -/

theorem py_max_by_ge_start : ∀ (xs : List NicheEvaluation) (x : NicheEvaluation)
    (f : NicheEvaluation → ℚ), f x ≤ f (py_max_by f x xs) := by
  intro xs
  induction xs with
  | nil => intro x f; exact le_refl _
  | cons y ys ih =>
    intro x f
    by_cases h : f x < f y
    · have hstep : py_max_by f x (y :: ys) = py_max_by f y ys := by
        simp [py_max_by, h]
      rw [hstep]
      exact le_trans (le_of_lt h) (ih y f)
    · have hstep : py_max_by f x (y :: ys) = py_max_by f x ys := by
        simp [py_max_by, h]
      rw [hstep]
      exact ih x f

theorem py_max_by_first_max : ∀ (xs : List NicheEvaluation) (x : NicheEvaluation)
    (f : NicheEvaluation → ℚ),
    ∃ l₁ l₂, x :: xs = l₁ ++ py_max_by f x xs :: l₂ ∧
      (∀ e ∈ l₁, f e < f (py_max_by f x xs)) ∧
      (∀ e ∈ l₂, f e ≤ f (py_max_by f x xs)) := by
  intro xs
  induction xs with
  | nil =>
    intro x f
    exact ⟨[], [], rfl, by simp, by simp⟩
  | cons y ys ih =>
    intro x f
    by_cases h : f x < f y
    · have hstep : py_max_by f x (y :: ys) = py_max_by f y ys := by
        simp [py_max_by, h]
      rw [hstep]
      obtain ⟨l₁, l₂, heq, hl₁, hl₂⟩ := ih y f
      refine ⟨x :: l₁, l₂, by rw [List.cons_append, ← heq], ?_, hl₂⟩
      intro e he
      rcases List.mem_cons.mp he with rfl | he'
      · exact lt_of_lt_of_le h (py_max_by_ge_start ys y f)
      · exact hl₁ e he'
    · have hstep : py_max_by f x (y :: ys) = py_max_by f x ys := by
        simp [py_max_by, h]
      rw [hstep]
      obtain ⟨l₁, l₂, heq, hl₁, hl₂⟩ := ih x f
      cases l₁ with
      | nil =>
        rw [List.nil_append] at heq
        have hm : x = py_max_by f x ys := List.head_eq_of_cons_eq heq
        have hl : ys = l₂ := List.tail_eq_of_cons_eq heq
        refine ⟨[], y :: ys, by rw [List.nil_append, ← hm], by simp, ?_⟩
        intro e he
        rcases List.mem_cons.mp he with rfl | he'
        · rw [← hm]
          exact not_lt.mp h
        · exact hl₂ e (hl ▸ he')
      | cons z l₁' =>
        rw [List.cons_append] at heq
        have hz : x = z := List.head_eq_of_cons_eq heq
        have hys : ys = l₁' ++ py_max_by f x ys :: l₂ := List.tail_eq_of_cons_eq heq
        have hxlt : f x < f (py_max_by f x ys) := by
          have h1 := hl₁ z (List.mem_cons_self ..)
          rw [← hz] at h1
          exact h1
        refine ⟨x :: y :: l₁', l₂, ?_, ?_, hl₂⟩
        · rw [List.cons_append, List.cons_append, ← hys]
        · intro e he
          rcases List.mem_cons.mp he with rfl | he'
          · exact hxlt
          · rcases List.mem_cons.mp he' with rfl | he''
            · exact lt_of_le_of_lt (not_lt.mp h) hxlt
            · exact hl₁ e (hz ▸ List.mem_cons_of_mem z he'')

theorem find_first {α : Type} (p : α → Bool) :
    ∀ (l₁ : List α) (m : α) (l₂ : List α),
    (∀ e ∈ l₁, p e = false) → p m = true →
    List.find? p (l₁ ++ m :: l₂) = some m := by
  intro l₁
  induction l₁ with
  | nil =>
    intro m l₂ _ hm
    rw [List.nil_append, List.find?_cons_of_pos _ hm]
  | cons z l₁' ih =>
    intro m l₂ hl hm
    rw [List.cons_append,
      List.find?_cons_of_neg _ (by simp [hl z (List.mem_cons_self ..)]),
      ih m l₂ (fun e he => hl e (List.mem_cons_of_mem z he)) hm]

theorem spec_best_niche_eq (x : NicheEvaluation) (xs : List NicheEvaluation) :
    spec_best_niche (x :: xs) = some (py_max_by selection_key x xs) := by
  obtain ⟨l₁, l₂, heq, hl₁, hl₂⟩ := py_max_by_first_max xs x selection_key
  have hmemall : ∀ y ∈ x :: xs, selection_key y ≤ selection_key (py_max_by selection_key x xs) := by
    intro y hy
    rw [heq] at hy
    rcases List.mem_append.mp hy with h | h
    · exact le_of_lt (hl₁ y h)
    · rcases List.mem_cons.mp h with rfl | h'
      · exact le_refl _
      · exact hl₂ y h'
  rw [spec_best_niche, heq]
  apply find_first
  · intro e he
    have hlt := hl₁ e he
    rw [List.all_eq_false]
    refine ⟨py_max_by selection_key x xs,
      List.mem_append.mpr (Or.inr (List.mem_cons_self ..)), ?_⟩
    simp only [decide_eq_true_eq]
    exact not_le.mpr hlt
  · rw [List.all_eq_true]
    intro y hy
    rw [heq] at hmemall
    simp only [decide_eq_true_eq]
    exact hmemall y hy

/-- C7: For every list of niche evaluations handled by
`DecisionMaker.handle_evaluations`: when no evaluation is compliant, the
published recommendation is the fixed zero-confidence no-suitable-niche
result; when at least one is compliant, the recommendation names the
first compliant evaluation maximizing `profitability_score /
max(risk_score, 0.01)` (the element `spec_best_niche` selects: ties are
broken in favor of the earliest), with confidence
`min(profitability / 10000, 1)`. -/
theorem C7_decision_selection (evaluations : List NicheEvaluation) :
    (evaluations.filter (fun e => e.compliance_ok) = [] →
      handle_evaluations evaluations = no_suitable_recommendation) ∧
    (∀ best, spec_best_niche (evaluations.filter (fun e => e.compliance_ok)) = some best →
      (handle_evaluations evaluations).category_id = best.category_id ∧
      (handle_evaluations evaluations).category_name = best.category_name ∧
      (handle_evaluations evaluations).confidence
        = min (best.profitability_score / 10000) 1) := by
  constructor
  · intro h
    simp [handle_evaluations, h]
  · intro best hbest
    rcases hv : evaluations.filter (fun e => e.compliance_ok) with _ | ⟨e, rest⟩
    · rw [hv] at hbest
      simp [spec_best_niche] at hbest
    · rw [hv, spec_best_niche_eq] at hbest
      have hbe : py_max_by selection_key e rest = best := Option.some.injEq .. ▸ hbest
      simp [handle_evaluations, hv, hbe]

/-- Witness for C7 at the spec's example: profitability 1000 at risk 0.5
(key 2000) beats profitability 1200 at risk 0.8 (key 1500), so the first
evaluation is selected. -/
theorem C7_decision_selection_witness :
    (handle_evaluations
      [⟨"cat_1", "Электроника", 1000, 1/2, true⟩,
       ⟨"cat_2", "Дом и сад", 1200, 4/5, true⟩]).category_id = "cat_1" := by
  have h := (C7_decision_selection
    [⟨"cat_1", "Электроника", 1000, 1/2, true⟩,
     ⟨"cat_2", "Дом и сад", 1200, 4/5, true⟩]).2
    ⟨"cat_1", "Электроника", 1000, 1/2, true⟩ (by with_unfolding_all decide)
  exact h.1

/-! ### NicheEvaluator: exact set join -/

/-- C6: `handle_audience_data` sets `audience_data_ready` exactly when the
set of category ids with received audience data equals (as a Python set)
the expected set from the last analyzed-data event; it never changes the
expected set; `handle_analyzed_data` never touches `audience_data_ready`,
so the audience handler is the only place the flag is set; `try_evaluate`
unlocks the evaluation plan exactly when both ready flags hold and
`niche_evaluated` is still false (the planner returns a nonempty plan
precisely then); and concretely, expecting `{cat_A, cat_B}` but receiving
audience data for `cat_A` and `cat_C` — key sets of equal size — never
sets the flag. -/
theorem C6_audience_join_exact (st : EvaluatorState) (cid : String) (ids : List String) :
    ((handle_audience_data cid st).1.audience_data_ready
      = (st.audience_data_ready
          || set_eq (dict_insert_key st.audience_ids cid) st.expected_categories)) ∧
    ((handle_audience_data cid st).1.expected_categories = st.expected_categories) ∧
    ((handle_analyzed_data ids st).1.audience_data_ready = st.audience_data_ready) ∧
    (try_evaluate_runs st
      = (st.category_data_ready && st.audience_data_ready && !st.niche_evaluated)) ∧
    ((process_audience_list ["cat_A", "cat_C"]
        (handle_analyzed_data ["cat_A", "cat_B"] evaluator_init).1).audience_data_ready
      = false) := by
  refine ⟨?_, ?_, ?_, ?_, ?_⟩
  · by_cases hse : set_eq (dict_insert_key st.audience_ids cid) st.expected_categories = true
    · simp [handle_audience_data, hse]
    · simp [handle_audience_data, hse]
  · by_cases hse : set_eq (dict_insert_key st.audience_ids cid) st.expected_categories = true
    · simp [handle_audience_data, hse]
    · simp [handle_audience_data, hse]
  · rfl
  · obtain ⟨c, a, n, ci, ai, ex⟩ := st
    cases c <;> cases a <;> cases n <;> with_unfolding_all rfl
  · with_unfolding_all decide

/-! ### Mutation model: the search never writes pre-existing dict cells -/

theorem store_getD_set_other (σ : DictStore) (r i : Nat) (x : WState) (h : i ≠ r) :
    (σ.set r x).getD i [] = σ.getD i [] := by
  rw [List.getD_eq_getElem?_getD, List.getD_eq_getElem?_getD, List.getElem?_set_ne (fun hh => h hh.symm)]

theorem apply_effects_ref_length (a : GoapAction) (r : Nat) (σ : DictStore) :
    (GOAPPlanner.apply_effects_ref a r σ).length = σ.length := by
  rw [GOAPPlanner.apply_effects_ref]
  induction a.effects generalizing σ with
  | nil => rfl
  | cons kv rest ih =>
    rw [List.foldl_cons, ih]
    exact List.length_set ..

theorem apply_effects_ref_getD_other (a : GoapAction) (r : Nat) (σ : DictStore) (i : Nat)
    (h : i ≠ r) : (GOAPPlanner.apply_effects_ref a r σ).getD i [] = σ.getD i [] := by
  rw [GOAPPlanner.apply_effects_ref]
  induction a.effects generalizing σ with
  | nil => rfl
  | cons kv rest ih =>
    rw [List.foldl_cons, ih, store_getD_set_other _ _ _ _ h]

theorem expand_ref_preserves (A : List GoapAction) (node : NodeRef) (σ : DictStore) :
    σ.length ≤ (GOAPPlanner.expand_ref A node σ).2.length ∧
    ∀ i, i < σ.length →
      (GOAPPlanner.expand_ref A node σ).2.getD i [] = σ.getD i [] := by
  rw [GOAPPlanner.expand_ref]
  have key : ∀ (acts : List GoapAction) (acc : List NodeRef × DictStore),
      acc.2.length ≤ (acts.foldl (fun acc a =>
        if GOAPPlanner.can_perform a (read_ref acc.2 node.state) then
          (acc.1 ++ [⟨acc.2.length, node.actions ++ [a], node.cost + a.cost⟩],
            GOAPPlanner.apply_effects_ref a acc.2.length
              (acc.2 ++ [read_ref acc.2 node.state]))
        else acc) acc).2.length ∧
      ∀ i, i < acc.2.length →
        ((acts.foldl (fun acc a =>
          if GOAPPlanner.can_perform a (read_ref acc.2 node.state) then
            (acc.1 ++ [⟨acc.2.length, node.actions ++ [a], node.cost + a.cost⟩],
              GOAPPlanner.apply_effects_ref a acc.2.length
                (acc.2 ++ [read_ref acc.2 node.state]))
          else acc) acc).2).getD i [] = acc.2.getD i [] := by
    intro acts
    induction acts with
    | nil => intro acc; exact ⟨le_refl _, fun i _ => rfl⟩
    | cons a rest ih =>
      intro acc
      rw [List.foldl_cons]
      by_cases hc : GOAPPlanner.can_perform a (read_ref acc.2 node.state) = true
      · rw [if_pos hc]
        set σ₂ := GOAPPlanner.apply_effects_ref a acc.2.length
          (acc.2 ++ [read_ref acc.2 node.state]) with hσ₂
        have hlen : σ₂.length = acc.2.length + 1 := by
          rw [hσ₂, apply_effects_ref_length, List.length_append, List.length_cons,
            List.length_nil]
        obtain ⟨hle, hpr⟩ := ih (acc.1 ++ [⟨acc.2.length, node.actions ++ [a],
          node.cost + a.cost⟩], σ₂)
        constructor
        · refine le_trans ?_ hle
          rw [hlen]
          omega
        · intro i hi
          rw [hpr i (by rw [hlen]; omega)]
          rw [hσ₂, apply_effects_ref_getD_other _ _ _ _ (by omega),
            List.getD_eq_getElem?_getD, List.getD_eq_getElem?_getD,
            List.getElem?_append_left hi]
      · rw [if_neg hc]
        exact ih acc
  exact key A ([], σ)

theorem plan_loop_ref_preserves (A : List GoapAction) (G : List (String × Bool)) :
    ∀ (fuel : Nat) (frontier : List NodeRef) (explored : List WState) (σ : DictStore)
    (i : Nat), i < σ.length →
    (GOAPPlanner.plan_loop_ref A G fuel frontier explored σ).2.getD i [] = σ.getD i [] := by
  intro fuel
  induction fuel with
  | zero => intro frontier explored σ i _; rfl
  | succ fuel ih =>
    intro frontier explored σ i hi
    rw [GOAPPlanner.plan_loop_ref]
    rcases hpop : pop_min_ref frontier with _ | ⟨node, rest⟩
    · rfl
    · dsimp only
      by_cases hg : GOAPPlanner.goals_satisfied G (read_ref σ node.state) = true
      · rw [if_pos hg]
      · rw [if_neg hg]
        by_cases hex : GOAPPlanner.state_hash (read_ref σ node.state) ∈ explored
        · rw [if_pos hex]
          exact ih rest explored σ i hi
        · rw [if_neg hex]
          obtain ⟨hle, hpr⟩ := expand_ref_preserves A node σ
          rcases hexp : GOAPPlanner.expand_ref A node σ with ⟨pushes, σ'⟩
          rw [hexp] at hle hpr
          dsimp only
          rw [ih _ _ σ' i (lt_of_lt_of_le hi hle)]
          exact hpr i hi

/-- C9: For every action catalog, goal mapping and caller dict (cell `r`
of store `σ`), `plan_ref` — the mutation model of `GOAPPlanner.plan` in
which Python dicts are store cells, `state.copy()` allocates a fresh cell
and `apply_effects` writes its argument cell in place — never changes any
cell that existed before the call: the initial state is copied before
being pushed and every successor is built by mutating a fresh copy of its
parent, so neither the caller's dict nor any state already in the
frontier is ever written.  The second conjunct states the same for every
intermediate search configuration: a loop step never writes any cell that
exists when the step starts. -/
theorem C9_plan_preserves_store (A : List GoapAction) (G : List (String × Bool))
    (r : DictRef) (σ : DictStore) (i : Nat) (hi : i < σ.length) :
    (GOAPPlanner.plan_ref A G r σ).2.getD i [] = σ.getD i [] ∧
    (∀ (fuel : Nat) (frontier : List NodeRef) (explored : List WState),
      (GOAPPlanner.plan_loop_ref A G fuel frontier explored σ).2.getD i []
        = σ.getD i []) := by
  constructor
  · rw [GOAPPlanner.plan_ref]
    rw [plan_loop_ref_preserves A G _ _ _ _ i
      (by rw [List.length_append]; omega)]
    rw [List.getD_eq_getElem?_getD, List.getD_eq_getElem?_getD,
      List.getElem?_append_left hi]
  · intro fuel frontier explored
    exact plan_loop_ref_preserves A G fuel frontier explored σ i hi

/-- Witness for C9: a one-cell store holding the caller's dict is
unchanged by a planner call that searches from it. -/
theorem C9_plan_preserves_store_witness :
    (GOAPPlanner.plan_ref [] [("x", true)] 0 [[("x", true)]]).2.getD 0 [] = [("x", true)] :=
  (C9_plan_preserves_store [] [("x", true)] 0 [[("x", true)]] 0 (by decide)).1

/-! ### Message broker lemmas -/

theorem dd_get_set_self {α : Type} (l : List (String × α)) (k : String) (v d : α) :
    dd_get (dd_set l k v) k d = v := by
  induction l with
  | nil => simp [dd_set, dd_get]
  | cons p rest ih =>
    obtain ⟨x, w⟩ := p
    by_cases h : x = k
    · simp [dd_set, dd_get, h]
    · simp [dd_set, dd_get, h, ih]

theorem dd_get_set_other {α : Type} (l : List (String × α)) (k k' : String) (v d : α)
    (h : k' ≠ k) : dd_get (dd_set l k v) k' d = dd_get l k' d := by
  induction l with
  | nil =>
    simp only [dd_set, dd_get]
    rw [if_neg (fun hh => h hh.symm)]
  | cons p rest ih =>
    obtain ⟨x, w⟩ := p
    by_cases hx : x = k
    · subst hx
      simp only [dd_set, if_pos rfl, dd_get]
      rw [if_neg (fun hh => h hh.symm), if_neg (fun hh => h hh.symm)]
    · simp only [dd_set, if_neg hx, dd_get]
      by_cases hx' : x = k'
      · simp [hx']
      · simp [hx', ih]

theorem subscribe_queues (br : Broker) (q : String) (cb : Callback) :
    (MessageBroker.subscribe br q cb).queues = br.queues := rfl

theorem subscribe_subs_at (br : Broker) (q : String) (cb : Callback) (t : String) :
    dd_get (MessageBroker.subscribe br q cb).subscribers t []
      = if q = t then dd_get br.subscribers t [] ++ [cb]
        else dd_get br.subscribers t [] := by
  by_cases h : q = t
  · subst h
    simp [MessageBroker.subscribe, dd_get_set_self]
  · simp [MessageBroker.subscribe, dd_get_set_other _ _ _ _ _ (fun hh => h hh.symm), h]

theorem subscribe_all_queues : ∀ (l : List (String × Callback)) (br : Broker),
    (MessageBroker.subscribe_all br l).queues = br.queues := by
  intro l
  induction l with
  | nil => intro br; rfl
  | cons p rest ih =>
    intro br
    rw [MessageBroker.subscribe_all, List.foldl_cons]
    rw [show List.foldl (fun b p => MessageBroker.subscribe b p.1 p.2) _ rest
        = MessageBroker.subscribe_all (MessageBroker.subscribe br p.1 p.2) rest from rfl]
    rw [ih, subscribe_queues]

theorem subscribe_all_subs_at : ∀ (l : List (String × Callback)) (br : Broker) (t : String),
    dd_get (MessageBroker.subscribe_all br l).subscribers t []
      = dd_get br.subscribers t [] ++ (l.filter fun p => p.1 = t).map Prod.snd := by
  intro l
  induction l with
  | nil => intro br t; simp [MessageBroker.subscribe_all]
  | cons p rest ih =>
    intro br t
    rw [MessageBroker.subscribe_all, List.foldl_cons]
    rw [show List.foldl (fun b p => MessageBroker.subscribe b p.1 p.2) _ rest
        = MessageBroker.subscribe_all (MessageBroker.subscribe br p.1 p.2) rest from rfl]
    rw [ih, subscribe_subs_at]
    by_cases h : p.1 = t
    · simp [h, List.filter_cons]
    · simp [h, List.filter_cons]

theorem entries_no_raise_iff : ∀ l : List (String × Callback),
    entries_no_raise l = true ↔ ∀ p ∈ l, p.2.no_raise = true := by
  intro l
  induction l with
  | nil => simp [entries_no_raise]
  | cons p rest ih =>
    obtain ⟨t, c⟩ := p
    rw [entries_no_raise, Bool.and_eq_true, ih]
    constructor
    · intro ⟨h1, h2⟩ q hq
      rcases List.mem_cons.mp hq with h | h
      · rw [h]; exact h1
      · exact h2 q h
    · intro h
      exact ⟨h (t, c) (List.mem_cons_self ..), fun q hq => h q (List.mem_cons_of_mem _ hq)⟩

theorem no_raise_mk {i : Nat} {subs : List (String × Callback)} {r : Bool}
    (h : (Callback.mk i subs r).no_raise = true) :
    r = false ∧ ∀ p ∈ subs, p.2.no_raise = true := by
  rw [Callback.no_raise, Bool.and_eq_true] at h
  exact ⟨by simpa using h.1, (entries_no_raise_iff subs).mp h.2⟩

theorem publish_loop_queues (topic m : String) :
    ∀ (pending : List Callback) (br : Broker) (log : List (Nat × String)),
    (MessageBroker.publish_loop topic m pending br log).1.queues = br.queues := by
  intro pending br log
  induction pending, br, log using MessageBroker.publish_loop.induct topic m with
  | case1 br log => simp [MessageBroker.publish_loop]
  | case2 c pending br log hraise =>
    simp only [MessageBroker.publish_loop, hraise, if_true]
    exact subscribe_all_queues c.subs br
  | case3 c pending br log log2 br2 hraise ih =>
    simp only [MessageBroker.publish_loop, hraise, if_false, Bool.false_eq_true]
    exact ih.trans (subscribe_all_queues c.subs br)

theorem no_raise_raises {c : Callback} (h : c.no_raise = true) : c.raises = false := by
  cases c with
  | mk i subs r => exact (no_raise_mk h).1

theorem no_raise_children {c : Callback} (h : c.no_raise = true) :
    ∀ p ∈ c.subs, p.2.no_raise = true := by
  cases c with
  | mk i subs r => exact (no_raise_mk h).2

theorem publish_loop_spec (topic m : String) :
    ∀ (pending : List Callback) (br : Broker) (log : List (Nat × String)),
    pending.all Callback.no_raise = true →
    ∀ done : List Callback,
    dd_get br.subscribers topic [] = done ++ pending →
    ∃ suffix,
      dd_get (MessageBroker.publish_loop topic m pending br log).1.subscribers topic []
        = done ++ pending ++ suffix ∧
      (MessageBroker.publish_loop topic m pending br log).2.1
        = log ++ (pending ++ suffix).map (fun c => (c.ident, m)) ∧
      (MessageBroker.publish_loop topic m pending br log).2.2 = true := by
  intro pending br log
  induction pending, br, log using MessageBroker.publish_loop.induct topic m with
  | case1 br log =>
    intro _ done hdone
    refine ⟨[], ?_, ?_, ?_⟩
    · simp only [MessageBroker.publish_loop]
      simpa using hdone
    · simp [MessageBroker.publish_loop]
    · simp [MessageBroker.publish_loop]
  | case2 c pending br log hraise =>
    intro hall done hdone
    rw [List.all_cons, Bool.and_eq_true] at hall
    rw [no_raise_raises hall.1] at hraise
    exact absurd hraise (by simp)
  | case3 c pending br log log2 br2 hraise ih =>
    intro hall done hdone
    rw [List.all_cons, Bool.and_eq_true] at hall
    have hch : ∀ p ∈ c.subs, p.2.no_raise = true := no_raise_children hall.1
    have hall2 : (pending ++ (c.subs.filter fun p => p.1 = topic).map Prod.snd).all
        Callback.no_raise = true := by
      rw [List.all_append, Bool.and_eq_true]
      refine ⟨hall.2, ?_⟩
      rw [List.all_eq_true]
      intro x hx
      rw [List.mem_map] at hx
      obtain ⟨p, hp, hpx⟩ := hx
      rw [← hpx]
      exact hch p (List.mem_filter.mp hp).1
    have hdone2 : dd_get (MessageBroker.subscribe_all br c.subs).subscribers topic []
        = (done ++ [c]) ++ (pending ++ (c.subs.filter fun p => p.1 = topic).map Prod.snd) := by
      rw [subscribe_all_subs_at, hdone]
      simp [List.append_assoc]
    obtain ⟨suffix2, hsub2, hlog2, hok2⟩ := ih hall2 (done ++ [c]) hdone2
    refine ⟨(c.subs.filter fun p => p.1 = topic).map Prod.snd ++ suffix2, ?_, ?_, ?_⟩
    · simp only [MessageBroker.publish_loop, hraise, if_false, Bool.false_eq_true]
      rw [hsub2]
      simp [List.append_assoc]
    · simp only [MessageBroker.publish_loop, hraise, if_false, Bool.false_eq_true]
      rw [hlog2, show log2 = log ++ [(c.ident, m)] from rfl]
      simp [List.append_assoc]
    · simp only [MessageBroker.publish_loop, hraise, if_false, Bool.false_eq_true]
      exact hok2

/-! ### Claim theorems for the message broker -/

/-- C3 counterexample: on a broker whose only call-time subscriber for the
topic is callback 0, which reentrantly subscribes callback 1 to the same
topic while being invoked, `publish` invokes callback 1 in the same
delivery pass: the invocation log is `[(0, msg), (1, msg)]` although the
call-time subscriber list contains only callback 0 — refuting the claim
that callbacks subscribed during dispatch are not invoked in the current
pass. -/
theorem C3_counterexample :
    ((dd_get reentrant_broker.subscribers "market.raw_data" []).map Callback.ident = [0]) ∧
    (MessageBroker.publish reentrant_broker "market.raw_data" "msg").2.1.map Prod.fst
      = [0, 1] := by
  constructor
  · rfl
  · simp [MessageBroker.publish, MessageBroker.publish_loop, MessageBroker.subscribe_all,
      MessageBroker.subscribe, reentrant_broker, reentrant_callback, dd_get, dd_set,
      Callback.ident, Callback.subs, Callback.raises]

/-- C3 (amended): `publish` iterates the live subscriber list, so when no
involved callback raises it invokes, exactly once each and in list order,
precisely the callbacks found in the topic's subscriber list at the end of
the call: the call-time subscribers (an unchanged prefix, since subscribe
only appends) followed by every callback reentrantly subscribed to this
topic during the dispatch. -/
theorem C3_publish_dispatch (br : Broker) (topic msg : String)
    (hnr : (dd_get br.subscribers topic []).all Callback.no_raise = true) :
    ∃ added,
      dd_get (MessageBroker.publish br topic msg).1.subscribers topic []
        = dd_get br.subscribers topic [] ++ added ∧
      (MessageBroker.publish br topic msg).2.1
        = (dd_get br.subscribers topic [] ++ added).map (fun c => (c.ident, msg)) ∧
      (MessageBroker.publish br topic msg).2.2 = true := by
  obtain ⟨suffix, h1, h2, h3⟩ :=
    publish_loop_spec topic msg (dd_get br.subscribers topic [])
      { br with queues := dd_set br.queues topic (dd_get br.queues topic [] ++ [msg]) }
      [] hnr [] rfl
  refine ⟨suffix, ?_, ?_, ?_⟩
  · simpa using h1
  · simpa using h2
  · exact h3

/-- Witness for C3 at the reentrant broker. -/
theorem C3_publish_dispatch_witness :
    ∃ added,
      dd_get (MessageBroker.publish reentrant_broker "market.raw_data" "msg").1.subscribers
        "market.raw_data" []
        = dd_get reentrant_broker.subscribers "market.raw_data" [] ++ added ∧
      (MessageBroker.publish reentrant_broker "market.raw_data" "msg").2.1
        = (dd_get reentrant_broker.subscribers "market.raw_data" [] ++ added).map
            (fun c => (c.ident, "msg")) ∧
      (MessageBroker.publish reentrant_broker "market.raw_data" "msg").2.2 = true :=
  C3_publish_dispatch reentrant_broker "market.raw_data" "msg"
    (by simp [reentrant_broker, reentrant_callback, Callback.no_raise, entries_no_raise,
      dd_get])

/-- C10: `publish` appends the message to the topic's queue before
invoking any subscriber and its dispatch never removes it (for every
broker, including ones whose callbacks raise); `consume` pops queued
messages from the front (FIFO) and returns the distinguished `none` once
the queue is empty; concretely, a message published to a broker whose only
subscriber raises is still retrievable by a later `consume`. -/
theorem C10_publish_queue_retained (br : Broker) (topic t' msg : String) :
    (dd_get (MessageBroker.publish br topic msg).1.queues t' []
      = if t' = topic then dd_get br.queues t' [] ++ [msg] else dd_get br.queues t' []) ∧
    (dd_get br.queues t' [] = [] → MessageBroker.consume br t' = (none, br)) ∧
    (∀ x rest, dd_get br.queues t' [] = x :: rest →
      MessageBroker.consume br t' = (some x, { br with queues := dd_set br.queues t' rest })) ∧
    ((MessageBroker.publish raising_broker "market.raw_data" "msg").2.2 = false ∧
      (MessageBroker.consume
        (MessageBroker.publish raising_broker "market.raw_data" "msg").1
        "market.raw_data").1 = some "msg") := by
  refine ⟨?_, ?_, ?_, ?_, ?_⟩
  · simp only [MessageBroker.publish]
    rw [publish_loop_queues]
    by_cases h : t' = topic
    · subst h
      rw [if_pos rfl]
      exact dd_get_set_self ..
    · rw [if_neg h]
      exact dd_get_set_other _ _ _ _ _ h
  · intro h
    simp [MessageBroker.consume, h]
  · intro x rest h
    simp [MessageBroker.consume, h]
  · simp [MessageBroker.publish, MessageBroker.publish_loop, raising_broker, dd_get, dd_set,
      Callback.raises, Callback.ident, Callback.subs, MessageBroker.subscribe_all]
  · simp [MessageBroker.publish, MessageBroker.publish_loop, MessageBroker.consume,
      raising_broker, dd_get, dd_set, Callback.raises, Callback.ident, Callback.subs,
      MessageBroker.subscribe_all]

/-- Witness for C10: consuming from a one-message queue returns that
message and leaves the emptied queue. -/
theorem C10_publish_queue_retained_witness :
    MessageBroker.consume ⟨[("a", ["m"])], []⟩ "a"
      = (some "m", { (⟨[("a", ["m"])], []⟩ : Broker) with queues := dd_set [("a", ["m"])] "a" [] }) :=
  (C10_publish_queue_retained ⟨[("a", ["m"])], []⟩ "a" "a" "m").2.2.1 "m" [] (by decide)
